import Mathlib

/-!
Verification of the binary MODFLOW output-file decoders in
`binary_parsers.py` (structured/unstructured head and budget files).

The file content is modelled as a list of bytes (`List Nat`).  Integer
header fields (`i4`) are decoded little-endian with two's complement;
`f4` payload values are kept as their raw 32-bit little-endian patterns
(the decoders never interpret them arithmetically, they only copy them).
`np.memmap` is the only failing primitive: it errors when the requested
span `offset + size` exceeds the file size, so each loop iteration checks
the span and otherwise extracts fields by pure byte slicing.

Arrays are modelled by `Arr`, which records whether the array is an
owned buffer (a `.copy()` / `np.concatenate` result) or a live view into
the memory mapping (a raw field of a `np.memmap` record).

A decoder takes a filesystem `fs : String → Option (List Nat)`
(`os.path.getsize` / `np.memmap` fail on a missing file) and a
`path : Option String` (`none` models Python `None`).  A Python
exception is modelled by the result `none`.
-/

/-- Byte slice of length `n` at byte offset `off`. -/
def getBytes (f : List Nat) (off n : Nat) : List Nat :=
  (f.drop off).take n

/-- Little-endian value of a byte list (first byte least significant). -/
def leWord : List Nat → Nat
  | [] => 0
  | b :: rest => b + 256 * leWord rest

/-- Two's-complement reading of a 32-bit pattern as a signed integer. -/
def toI4 (n : Nat) : Int :=
  if n < 2147483648 then (n : Int) else (n : Int) - 4294967296

/-- Raw 32-bit little-endian word at byte offset `off` (used for `f4` fields). -/
def getWord (f : List Nat) (off : Nat) : Nat :=
  leWord (getBytes f off 4)

/-- Signed `i4` field at byte offset `off`. -/
def getI4 (f : List Nat) (off : Nat) : Int :=
  toI4 (getWord f off)

/-- Group a byte list into 32-bit little-endian words (one per `f4` element). -/
def chunkWords : List Nat → List Nat
  | b0 :: b1 :: b2 :: b3 :: rest => (b0 + 256 * (b1 + 256 * (b2 + 256 * b3))) :: chunkWords rest
  | _ => []

/-- The four little-endian bytes of a 32-bit word. -/
def wordBytes (w : Nat) : List Nat :=
  [w % 256, w / 256 % 256, w / 65536 % 256, w / 16777216 % 256]

/-- Serialize a list of 32-bit words to bytes. -/
def wordsBytes (ws : List Nat) : List Nat :=
  (ws.map wordBytes).flatten

/-- Serialize a signed `i4` value to its four little-endian bytes. -/
def i4bytes (k : Int) : List Nat :=
  wordBytes ((k % 4294967296).toNat)

/-- Python `str.strip` whitespace characters, as bytes. -/
def isSpaceByte (b : Nat) : Bool :=
  b == 32 || b == 9 || b == 10 || b == 13 || b == 11 || b == 12

/-- Effect of extracting a NumPy `S16` field and running `.decode().strip()`:
trailing NUL bytes are dropped by NumPy, then whitespace is stripped at
both ends. -/
def stripLabel (bs : List Nat) : List Nat :=
  ((((bs.reverse.dropWhile (fun b => b == 0)).dropWhile isSpaceByte).reverse).dropWhile isSpaceByte)

/-- A decoded NumPy array: either an owned buffer (result of `.copy()` or
`np.concatenate`) or a live view into the file's memory mapping. -/
inductive Arr : Type where
  | owned : List Nat → Arr
  | view : List Nat → Arr
deriving DecidableEq

/-- The element words of an array. -/
def Arr.vals : Arr → List Nat
  | .owned d => d
  | .view d => d

/-- Whether the array owns its buffer (is independent of the file mapping). -/
def Arr.isOwned : Arr → Bool
  | .owned _ => true
  | .view _ => false

/-- `np.ndarray.copy`: always yields an owned buffer with the same elements. -/
def Arr.copy (a : Arr) : Arr :=
  Arr.owned a.vals

/-- Lookup in an insertion-ordered association list (Python `dict` access). -/
def lookupA {α β : Type} [DecidableEq α] : List (α × β) → α → Option β
  | [], _ => none
  | (k, v) :: t, k0 => if k = k0 then some v else lookupA t k0

/-- Python `dict` assignment `d[k] = v`: overwrite in place, else append. -/
def updAssoc {α β : Type} [DecidableEq α] : List (α × β) → α → β → List (α × β)
  | [], k, v => [(k, v)]
  | (k0, v0) :: t, k, v => if k0 = k then (k0, v) :: t else (k0, v0) :: updAssoc t k v

/-- `cbb.setdefault(text, {}); cbb[text][kper, kstp] = v` on the nested
structured-budget dictionary. -/
def cbbStore (m : List (List Nat × List ((Int × Int) × Arr))) (t : List Nat)
    (k : Int × Int) (v : Arr) : List (List Nat × List ((Int × Int) × Arr)) :=
  match m with
  | [] => [(t, [(k, v)])]
  | (t0, inner) :: rest =>
    if t0 = t then (t0, updAssoc inner k v) :: rest else (t0, inner) :: cbbStore rest t k v

/-- Python truthiness of the `items` argument (`None` and `[]` are falsy). -/
def itemsTruthy : Option (List (List Nat)) → Bool
  | none => false
  | some l => !l.isEmpty

/-- Membership test `text in items` (only evaluated when `items` is truthy). -/
def itemsHas (items : Option (List (List Nat))) (t : List Nat) : Bool :=
  match items with
  | none => false
  | some l => decide (t ∈ l)

/-- Byte size of one per-layer structured-head record:
`kstp,kper,pertim,totim (4 each) + text (16) + ncol,nrow,ilay (4 each) +
nrow*ncol f4 values`. -/
def hdsRecBytes (nrow ncol : Nat) : Nat :=
  44 + 4 * (nrow * ncol)

/-- The stacked `(nlay, nrow, ncol)` data of the `nlay` consecutive records
starting at `off`, flattened in layer order (what `arr['data']` holds). -/
def hdsStack (f : List Nat) (off nlay nrow ncol : Nat) : List Nat :=
  ((List.range nlay).map (fun i =>
    chunkWords (getBytes f (off + i * hdsRecBytes nrow ncol + 44) (4 * (nrow * ncol))))).flatten

/-- Scan loop of `parse_hds`: at each offset, memory-map `nlay` consecutive
records, keep the first record's `(kper, kstp)` key and `totim`, and store
a copy of the stacked data. -/
def parse_hds_loop (f : List Nat) (nlay nrow ncol : Nat) :
    Nat → Nat → List ((Int × Int) × Arr) → List Nat →
    Option (List ((Int × Int) × Arr) × List Nat)
  | 0, _, _, _ => none
  | fuel + 1, off, hds, totim =>
    if off < f.length then
      if off + nlay * hdsRecBytes nrow ncol ≤ f.length then
        parse_hds_loop f nlay nrow ncol fuel (off + nlay * hdsRecBytes nrow ncol)
          (updAssoc hds (getI4 f (off + 4), getI4 f off)
            ((Arr.view (hdsStack f off nlay nrow ncol)).copy))
          (totim ++ [getWord f (off + 12)])
      else none
    else some (hds, totim)

/-- `parse_hds(file_path, nlay, nrow, ncol)`: structured head-file decoder.
Returns the `{(kper, kstp): data}` mapping and the `totim` list, or `none`
on a Python exception.  A `None` path or a zero dimension short-circuits
to an empty result before any file access. -/
def parse_hds (fs : String → Option (List Nat)) (path : Option String)
    (nlay nrow ncol : Nat) : Option (List ((Int × Int) × Arr) × List Nat) :=
  match path with
  | none => some ([], [])
  | some p =>
    if nlay = 0 ∨ nrow = 0 ∨ ncol = 0 then some ([], [])
    else
      match fs p with
      | none => none
      | some f => parse_hds_loop f nlay nrow ncol (f.length + 1) 0 [] []

/-- Byte size of one structured-budget record:
`kstp,kper (4 each) + text (16) + ncol,nrow,nlay (4 each) +
nlay*nrow*ncol f4 values`. -/
def cbbRecBytes (nlay nrow ncol : Nat) : Nat :=
  36 + 4 * (nlay * nrow * ncol)

/-- Scan loop of `parse_cbb`: one record per iteration; a record is stored
(under its stripped label) when `items` is truthy and contains the label,
or when `items` is falsy; otherwise it is skipped with the offset still
advanced past it. -/
def parse_cbb_loop (f : List Nat) (nlay nrow ncol : Nat)
    (items : Option (List (List Nat))) :
    Nat → Nat → List (List Nat × List ((Int × Int) × Arr)) →
    Option (List (List Nat × List ((Int × Int) × Arr)))
  | 0, _, _ => none
  | fuel + 1, off, cbb =>
    if off < f.length then
      if off + cbbRecBytes nlay nrow ncol ≤ f.length then
        parse_cbb_loop f nlay nrow ncol items fuel (off + cbbRecBytes nlay nrow ncol)
          (if itemsTruthy items && itemsHas items (stripLabel (getBytes f (off + 8) 16)) then
            cbbStore cbb (stripLabel (getBytes f (off + 8) 16)) (getI4 f (off + 4), getI4 f off)
              ((Arr.view (chunkWords (getBytes f (off + 36) (4 * (nlay * nrow * ncol))))).copy)
          else if !itemsTruthy items then
            cbbStore cbb (stripLabel (getBytes f (off + 8) 16)) (getI4 f (off + 4), getI4 f off)
              ((Arr.view (chunkWords (getBytes f (off + 36) (4 * (nlay * nrow * ncol))))).copy)
          else cbb)
      else none
    else some cbb

/-- `parse_cbb(file_path, nlay, nrow, ncol, items)`: structured budget-file
decoder.  No argument short-circuit: a `None` path or a missing file makes
`os.path.getsize` raise. -/
def parse_cbb (fs : String → Option (List Nat)) (path : Option String)
    (nlay nrow ncol : Nat) (items : Option (List (List Nat))) :
    Option (List (List Nat × List ((Int × Int) × Arr))) :=
  match path with
  | none => none
  | some p =>
    match fs p with
    | none => none
    | some f => parse_cbb_loop f nlay nrow ncol items (f.length + 1) 0 []

/-- Scan loop of `parse_hdsu`: the 44-byte header is probed first; the
accumulator `h` (`none` models the still-unbound Python variable) is reset
to empty on `ilay == 1`, the payload length is `nndlay - nstrt + 1`
(negative lengths fail at dtype construction), the full record is mapped,
and the concatenated accumulator is stored under `(kper, kstp)` after
every single-layer record. -/
def parse_hdsu_loop (f : List Nat) :
    Nat → Nat → Option (List Nat) → List ((Int × Int) × Arr) →
    Option (List ((Int × Int) × Arr))
  | 0, _, _, _ => none
  | fuel + 1, off, h, acc =>
    if off < f.length then
      if off + 44 ≤ f.length then
        if getI4 f (off + 36) - getI4 f (off + 32) + 1 < 0 then none
        else
          if off + 44 + 4 * (getI4 f (off + 36) - getI4 f (off + 32) + 1).toNat ≤ f.length then
            match (if getI4 f (off + 40) = 1 then some [] else h) with
            | none => none
            | some hv =>
              parse_hdsu_loop f fuel
                (off + 44 + 4 * (getI4 f (off + 36) - getI4 f (off + 32) + 1).toNat)
                (some (hv ++ chunkWords (getBytes f (off + 44)
                  (4 * (getI4 f (off + 36) - getI4 f (off + 32) + 1).toNat))))
                (updAssoc acc (getI4 f (off + 4), getI4 f off)
                  (Arr.owned (hv ++ chunkWords (getBytes f (off + 44)
                    (4 * (getI4 f (off + 36) - getI4 f (off + 32) + 1).toNat)))))
          else none
      else none
    else some acc

/-- `parse_hdsu(file_path)`: unstructured head-file decoder. -/
def parse_hdsu (fs : String → Option (List Nat)) (path : Option String) :
    Option (List ((Int × Int) × Arr)) :=
  match path with
  | none => none
  | some p =>
    match fs p with
    | none => none
    | some f => parse_hdsu_loop f (f.length + 1) 0 none []

/-- Scan loop of `parse_cbbu`: probe the 36-byte header for `nval`, map the
full record, and store the payload under `(text, nval, kper, kstp)` —
without `.copy()`, so the stored array is a view into the mapping. -/
def parse_cbbu_loop (f : List Nat) (items : Option (List (List Nat))) :
    Nat → Nat → List ((List Nat × Int × Int × Int) × Arr) →
    Option (List ((List Nat × Int × Int × Int) × Arr))
  | 0, _, _ => none
  | fuel + 1, off, bud =>
    if off < f.length then
      if off + 36 ≤ f.length then
        if getI4 f (off + 24) < 0 then none
        else
          if off + 36 + 4 * (getI4 f (off + 24)).toNat ≤ f.length then
            parse_cbbu_loop f items fuel (off + 36 + 4 * (getI4 f (off + 24)).toNat)
              (if itemsTruthy items && itemsHas items (stripLabel (getBytes f (off + 8) 16)) then
                updAssoc bud
                  (stripLabel (getBytes f (off + 8) 16), getI4 f (off + 24),
                    getI4 f (off + 4), getI4 f off)
                  (Arr.view (chunkWords (getBytes f (off + 36) (4 * (getI4 f (off + 24)).toNat))))
              else if !itemsTruthy items then
                updAssoc bud
                  (stripLabel (getBytes f (off + 8) 16), getI4 f (off + 24),
                    getI4 f (off + 4), getI4 f off)
                  (Arr.view (chunkWords (getBytes f (off + 36) (4 * (getI4 f (off + 24)).toNat))))
              else bud)
          else none
      else none
    else some bud

/-- `parse_cbbu(file_path, items)`: unstructured budget-file decoder. -/
def parse_cbbu (fs : String → Option (List Nat)) (path : Option String)
    (items : Option (List (List Nat))) :
    Option (List ((List Nat × Int × Int × Int) × Arr)) :=
  match path with
  | none => none
  | some p =>
    match fs p with
    | none => none
    | some f => parse_cbbu_loop f items (f.length + 1) 0 []

/-- Signed 32-bit range of an `i4` field. -/
def i4Range (k : Int) : Prop :=
  -2147483648 ≤ k ∧ k < 2147483648

/-- One per-layer record of a structured head file (writer side). -/
structure HRec where
  kstp : Int
  kper : Int
  pertim : Nat
  totim : Nat
  text : List Nat
  ncolf : Int
  nrowf : Int
  ilayf : Int
  data : List Nat
deriving DecidableEq

/-- Byte encoding of one structured-head record. -/
def encHRec (r : HRec) : List Nat :=
  i4bytes r.kstp ++ i4bytes r.kper ++ wordBytes r.pertim ++ wordBytes r.totim ++ r.text ++
    i4bytes r.ncolf ++ i4bytes r.nrowf ++ i4bytes r.ilayf ++ wordsBytes r.data

/-- Well-formedness of a structured-head record for a `(nrow, ncol)` grid. -/
def HRec.wf (nrow ncol : Nat) (r : HRec) : Prop :=
  r.text.length = 16 ∧ i4Range r.kstp ∧ i4Range r.kper ∧ r.totim < 4294967296 ∧
    r.data.length = nrow * ncol ∧ ∀ w ∈ r.data, w < 4294967296

/-- Byte encoding of one time step of a structured head file:
`nlay` consecutive per-layer records. -/
def encHGroup (g : List HRec) : List Nat :=
  (g.map encHRec).flatten

/-- Byte encoding of a whole structured head file. -/
def encHFile (gs : List (List HRec)) : List Nat :=
  (gs.map encHGroup).flatten

/-- Time-step key of a group (the first layer's `(kper, kstp)`). -/
def hKey : List HRec → Int × Int
  | [] => (0, 0)
  | r :: _ => (r.kper, r.kstp)

/-- The `totim` of a group's first layer (the only one the decoder keeps). -/
def hTotim : List HRec → Nat
  | [] => 0
  | r :: _ => r.totim

/-- The stacked data of one group, flattened in layer order. -/
def hGroupData (g : List HRec) : List Nat :=
  (g.map (fun r => r.data)).flatten

/-- One single-layer record of an unstructured head file (writer side). -/
structure URec where
  kstp : Int
  kper : Int
  pertim : Nat
  totim : Nat
  text : List Nat
  nstrt : Int
  nndlay : Int
  ilay : Int
  data : List Nat
deriving DecidableEq

/-- Byte encoding of one unstructured-head record. -/
def encURec (r : URec) : List Nat :=
  i4bytes r.kstp ++ i4bytes r.kper ++ wordBytes r.pertim ++ wordBytes r.totim ++ r.text ++
    i4bytes r.nstrt ++ i4bytes r.nndlay ++ i4bytes r.ilay ++ wordsBytes r.data

/-- Well-formedness of an unstructured-head record: the payload length is
the declared node range `nndlay - nstrt + 1`. -/
def URec.wf (r : URec) : Prop :=
  r.text.length = 16 ∧ i4Range r.kstp ∧ i4Range r.kper ∧ i4Range r.nstrt ∧
    i4Range r.nndlay ∧ i4Range r.ilay ∧
    (r.data.length : Int) = r.nndlay - r.nstrt + 1 ∧ ∀ w ∈ r.data, w < 4294967296

/-- Byte encoding of one time step of an unstructured head file. -/
def encUGroup (g : List URec) : List Nat :=
  (g.map encURec).flatten

/-- Byte encoding of a whole unstructured head file. -/
def encUFile (gs : List (List URec)) : List Nat :=
  (gs.map encUGroup).flatten

/-- Time-step key of an unstructured-head group. -/
def uKey : List URec → Int × Int
  | [] => (0, 0)
  | r :: _ => (r.kper, r.kstp)

/-- The concatenation of one group's per-layer payload segments, in layer
order. -/
def uGroupData (g : List URec) : List Nat :=
  (g.map (fun r => r.data)).flatten

/-- Well-formedness of one unstructured-head time step: non-empty, each
record well formed, records in increasing layer order starting at
`ilay = 1`, and all records share the group's `(kper, kstp)` key. -/
def uGroupWf (g : List URec) : Prop :=
  g ≠ [] ∧ (∀ r ∈ g, URec.wf r) ∧
    (∀ i : Fin g.length, (g.get i).ilay = (i : Nat) + 1) ∧
    (∀ r ∈ g, r.kper = (uKey g).1 ∧ r.kstp = (uKey g).2)

/-- One record of a structured budget file (writer side). -/
structure BRec where
  kstp : Int
  kper : Int
  text : List Nat
  ncolf : Int
  nrowf : Int
  nlayf : Int
  data : List Nat
deriving DecidableEq

/-- Byte encoding of one structured-budget record. -/
def encBRec (r : BRec) : List Nat :=
  i4bytes r.kstp ++ i4bytes r.kper ++ r.text ++ i4bytes r.ncolf ++ i4bytes r.nrowf ++
    i4bytes r.nlayf ++ wordsBytes r.data

/-- Well-formedness of a structured-budget record for a
`(nlay, nrow, ncol)` grid. -/
def BRec.wf (nlay nrow ncol : Nat) (r : BRec) : Prop :=
  r.text.length = 16 ∧ i4Range r.kstp ∧ i4Range r.kper ∧
    r.data.length = nlay * nrow * ncol ∧ ∀ w ∈ r.data, w < 4294967296

/-- Byte encoding of a whole structured budget file. -/
def encBFile (rs : List BRec) : List Nat :=
  (rs.map encBRec).flatten

/-- One record of an unstructured budget file (writer side). -/
structure UBRec where
  kstp : Int
  kper : Int
  text : List Nat
  nval : Int
  one : Int
  icode : Int
  data : List Nat
deriving DecidableEq

/-- Byte encoding of one unstructured-budget record. -/
def encUBRec (r : UBRec) : List Nat :=
  i4bytes r.kstp ++ i4bytes r.kper ++ r.text ++ i4bytes r.nval ++ i4bytes r.one ++
    i4bytes r.icode ++ wordsBytes r.data

/-- Well-formedness of an unstructured-budget record: the payload length is
the declared `nval ≥ 0`. -/
def UBRec.wf (r : UBRec) : Prop :=
  r.text.length = 16 ∧ i4Range r.kstp ∧ i4Range r.kper ∧ i4Range r.nval ∧ 0 ≤ r.nval ∧
    (r.data.length : Int) = r.nval ∧ ∀ w ∈ r.data, w < 4294967296

/-- Byte encoding of a whole unstructured budget file. -/
def encUBFile (rs : List UBRec) : List Nat :=
  (rs.map encUBRec).flatten

/-- Whether a record with stripped label `t` is stored for allow-list
`items` (the Python `if items and text in items ... elif not items`
condition). -/
def keepRec (items : Option (List (List Nat))) (t : List Nat) : Bool :=
  (itemsTruthy items && itemsHas items t) || !itemsTruthy items

/-- The structured-budget mapping built from a record list (the stored
value of each record is an owned copy of its payload). -/
def cbbBuild (rs : List BRec) : List (List Nat × List ((Int × Int) × Arr)) :=
  rs.foldl (fun acc r => cbbStore acc (stripLabel r.text) (r.kper, r.kstp) (Arr.owned r.data)) []

/-- The unstructured-budget mapping built from a record list (the stored
value of each record is a view of its payload). -/
def cbbuBuild (rs : List UBRec) : List ((List Nat × Int × Int × Int) × Arr) :=
  rs.foldl (fun acc r =>
    updAssoc acc (stripLabel r.text, r.nval, r.kper, r.kstp) (Arr.view r.data)) []

/-- Total number of records of an unstructured head file's groups. -/
def totURecs (gs : List (List URec)) : Nat :=
  (gs.map List.length).sum

/-- Variant of `parse_hdsu_loop` stated from the specification's reading of
the algorithm: the accumulator is always initialized, so there is no
unbound-variable branch.  Used to express that, once the accumulator has
been set (first record has `ilay == 1`), the unbound branch of
`parse_hdsu_loop` is unreachable. -/
def parse_hdsu_loopI (f : List Nat) :
    Nat → Nat → List Nat → List ((Int × Int) × Arr) →
    Option (List ((Int × Int) × Arr))
  | 0, _, _, _ => none
  | fuel + 1, off, hv0, acc =>
    if off < f.length then
      if off + 44 ≤ f.length then
        if getI4 f (off + 36) - getI4 f (off + 32) + 1 < 0 then none
        else
          if off + 44 + 4 * (getI4 f (off + 36) - getI4 f (off + 32) + 1).toNat ≤ f.length then
            parse_hdsu_loopI f fuel
              (off + 44 + 4 * (getI4 f (off + 36) - getI4 f (off + 32) + 1).toNat)
              ((if getI4 f (off + 40) = 1 then [] else hv0) ++
                chunkWords (getBytes f (off + 44)
                  (4 * (getI4 f (off + 36) - getI4 f (off + 32) + 1).toNat)))
              (updAssoc acc (getI4 f (off + 4), getI4 f off)
                (Arr.owned ((if getI4 f (off + 40) = 1 then [] else hv0) ++
                  chunkWords (getBytes f (off + 44)
                    (4 * (getI4 f (off + 36) - getI4 f (off + 32) + 1).toNat)))))
          else none
      else none
    else some acc

/-- The record sizes scanned by `parse_hdsu` starting at `off` tile the
file: each size is `44 + 4 * (nndlay - nstrt + 1)` read from the record's
own header, and the last record ends exactly at the file size. -/
def hdsuTiles (f : List Nat) : Nat → List Nat → Prop
  | off, [] => off = f.length
  | off, s :: rest =>
    s = 44 + 4 * (getI4 f (off + 36) - getI4 f (off + 32) + 1).toNat ∧
      hdsuTiles f (off + s) rest

/-- The record sizes scanned by `parse_cbbu` starting at `off` tile the
file: each size is `36 + 4 * nval` read from the record's own header, and
the last record ends exactly at the file size. -/
def cbbuTiles (f : List Nat) : Nat → List Nat → Prop
  | off, [] => off = f.length
  | off, s :: rest =>
    s = 36 + 4 * (getI4 f (off + 24)).toNat ∧ cbbuTiles f (off + s) rest

@[simp]
theorem wordBytes_length (w : Nat) : (wordBytes w).length = 4 := by
  simp [wordBytes]

@[simp]
theorem i4bytes_length (k : Int) : (i4bytes k).length = 4 := by
  simp [i4bytes]

@[simp]
theorem wordsBytes_length (ws : List Nat) : (wordsBytes ws).length = 4 * ws.length := by
  induction ws with
  | nil => simp [wordsBytes]
  | cons w rest ih =>
    simp [wordsBytes] at ih
    simp [wordsBytes, ih]
    omega

theorem getBytes_skip (A B : List Nat) (k n : Nat) :
    getBytes (A ++ B) (A.length + k) n = getBytes B k n := by
  unfold getBytes
  rw [← List.drop_drop, List.drop_left]

theorem getWord_skip (A B : List Nat) (k : Nat) :
    getWord (A ++ B) (A.length + k) = getWord B k := by
  unfold getWord
  rw [getBytes_skip]

theorem getI4_skip (A B : List Nat) (k : Nat) :
    getI4 (A ++ B) (A.length + k) = getI4 B k := by
  unfold getI4
  rw [getWord_skip]

theorem getBytes_at (A B : List Nat) (c n : Nat) (hc : A.length = c) :
    getBytes (A ++ B) c n = getBytes B 0 n := by
  subst hc
  simpa using getBytes_skip A B 0 n

theorem getWord_at (A B : List Nat) (c : Nat) (hc : A.length = c) :
    getWord (A ++ B) c = getWord B 0 := by
  unfold getWord
  rw [getBytes_at A B c 4 hc]

theorem getI4_at (A B : List Nat) (c : Nat) (hc : A.length = c) :
    getI4 (A ++ B) c = getI4 B 0 := by
  unfold getI4
  rw [getWord_at A B c hc]

theorem getWord_wordBytes (w : Nat) (hw : w < 4294967296) (S : List Nat) :
    getWord (wordBytes w ++ S) 0 = w := by
  simp [getWord, getBytes, wordBytes, leWord]
  omega

theorem getI4_i4bytes (k : Int) (hk : i4Range k) (S : List Nat) :
    getI4 (i4bytes k ++ S) 0 = k := by
  obtain ⟨h1, h2⟩ := hk
  unfold getI4 i4bytes
  rw [getWord_wordBytes _ (by omega) S]
  unfold toI4
  split <;> omega

theorem getWord_peel (A B : List Nat) (c : Nat) (w : Nat) (hc : A.length = c)
    (hw : w < 4294967296) :
    getWord (A ++ (wordBytes w ++ B)) c = w := by
  rw [getWord_at _ _ c hc, getWord_wordBytes w hw]

theorem getI4_peel (A B : List Nat) (c : Nat) (k : Int) (hc : A.length = c)
    (hk : i4Range k) :
    getI4 (A ++ (i4bytes k ++ B)) c = k := by
  rw [getI4_at _ _ c hc, getI4_i4bytes k hk]

theorem getBytes_peel (A B C : List Nat) (c n : Nat) (hc : A.length = c)
    (hn : B.length = n) :
    getBytes (A ++ (B ++ C)) c n = B := by
  rw [getBytes_at _ _ c n hc]
  unfold getBytes
  simp [List.take_left' hn]

theorem chunkWords_wordsBytes (ws : List Nat) (h : ∀ w ∈ ws, w < 4294967296) :
    chunkWords (wordsBytes ws) = ws := by
  induction ws with
  | nil => simp [wordsBytes, chunkWords]
  | cons w rest ih =>
    have hw : w < 4294967296 := h w (by simp)
    have hr : ∀ x ∈ rest, x < 4294967296 := fun x hx => h x (by simp [hx])
    show chunkWords (wordsBytes (w :: rest)) = w :: rest
    have h1 : wordsBytes (w :: rest) = wordBytes w ++ wordsBytes rest := by
      simp [wordsBytes]
    have h2 : wordBytes w ++ wordsBytes rest =
        w % 256 :: (w / 256 % 256) :: (w / 65536 % 256) :: (w / 16777216 % 256) ::
          wordsBytes rest := by
      simp [wordBytes]
    rw [h1, h2, chunkWords, ih hr]
    congr 1
    omega

theorem updAssoc_mem {α β : Type} [DecidableEq α] (acc : List (α × β)) (k : α) (v : β)
    (p : α × β) (hp : p ∈ updAssoc acc k v) : p ∈ acc ∨ p.2 = v := by
  induction acc with
  | nil =>
    simp [updAssoc] at hp
    subst hp
    right
    rfl
  | cons q t ih =>
    unfold updAssoc at hp
    split at hp
    · rcases List.mem_cons.mp hp with h | h
      · right
        rw [h]
      · left
        exact List.mem_cons_of_mem _ h
    · rcases List.mem_cons.mp hp with h | h
      · left
        simp [h]
      · rcases ih h with h2 | h2
        · left
          exact List.mem_cons_of_mem _ h2
        · right
          exact h2

theorem updAssoc_collapse {α β : Type} [DecidableEq α] (acc : List (α × β)) (k : α)
    (v v2 : β) : updAssoc (updAssoc acc k v) k v2 = updAssoc acc k v2 := by
  induction acc with
  | nil => simp [updAssoc]
  | cons q t ih =>
    obtain ⟨qk, qv⟩ := q
    by_cases hq : qk = k
    · simp [updAssoc, hq]
    · simp [updAssoc, hq, ih]

theorem updAssoc_fresh {α β : Type} [DecidableEq α] (acc : List (α × β)) (k : α) (v : β)
    (h : ∀ p ∈ acc, p.1 ≠ k) : updAssoc acc k v = acc ++ [(k, v)] := by
  induction acc with
  | nil => simp [updAssoc]
  | cons q t ih =>
    obtain ⟨qk, qv⟩ := q
    have hq : qk ≠ k := h (qk, qv) (by simp)
    simp only [updAssoc, if_neg hq, List.cons_append]
    rw [ih (fun p hp => h p (by simp [hp]))]

theorem lookupA_updAssoc_self {α β : Type} [DecidableEq α] (acc : List (α × β)) (k : α)
    (v : β) : lookupA (updAssoc acc k v) k = some v := by
  induction acc with
  | nil => simp [updAssoc, lookupA]
  | cons q t ih =>
    unfold updAssoc
    split
    · simp [lookupA, *]
    · unfold lookupA
      rw [if_neg (by assumption), ih]

theorem encURec_length (r : URec) (h : r.wf) :
    (encURec r).length = 44 + 4 * r.data.length := by
  obtain ⟨ht, -⟩ := h
  simp [encURec, ht]
  omega

theorem encURec_kstp (r : URec) (S : List Nat) (h : r.wf) :
    getI4 (encURec r ++ S) 0 = r.kstp := by
  obtain ⟨ht, hkstp, -⟩ := h
  have hs : encURec r ++ S = i4bytes r.kstp ++
      (i4bytes r.kper ++ (wordBytes r.pertim ++ (wordBytes r.totim ++ (r.text ++
        (i4bytes r.nstrt ++ (i4bytes r.nndlay ++ (i4bytes r.ilay ++
          (wordsBytes r.data ++ S)))))))) := by
    simp [encURec, List.append_assoc]
  rw [hs, getI4_i4bytes _ hkstp]

theorem encURec_kper (r : URec) (S : List Nat) (h : r.wf) :
    getI4 (encURec r ++ S) 4 = r.kper := by
  obtain ⟨ht, hkstp, hkper, -⟩ := h
  have hs : encURec r ++ S = i4bytes r.kstp ++
      (i4bytes r.kper ++ (wordBytes r.pertim ++ (wordBytes r.totim ++ (r.text ++
        (i4bytes r.nstrt ++ (i4bytes r.nndlay ++ (i4bytes r.ilay ++
          (wordsBytes r.data ++ S)))))))) := by
    simp [encURec, List.append_assoc]
  rw [hs, getI4_peel _ _ 4 _ (by simp) hkper]

theorem encURec_nstrt (r : URec) (S : List Nat) (h : r.wf) :
    getI4 (encURec r ++ S) 32 = r.nstrt := by
  obtain ⟨ht, hkstp, hkper, hnstrt, -⟩ := h
  have hs : encURec r ++ S =
      (i4bytes r.kstp ++ (i4bytes r.kper ++ (wordBytes r.pertim ++
        (wordBytes r.totim ++ r.text)))) ++
      (i4bytes r.nstrt ++ (i4bytes r.nndlay ++ (i4bytes r.ilay ++
        (wordsBytes r.data ++ S)))) := by
    simp [encURec, List.append_assoc]
  rw [hs, getI4_peel _ _ 32 _ (by simp [ht]) hnstrt]

theorem encURec_nndlay (r : URec) (S : List Nat) (h : r.wf) :
    getI4 (encURec r ++ S) 36 = r.nndlay := by
  obtain ⟨ht, hkstp, hkper, hnstrt, hnndlay, -⟩ := h
  have hs : encURec r ++ S =
      (i4bytes r.kstp ++ (i4bytes r.kper ++ (wordBytes r.pertim ++
        (wordBytes r.totim ++ (r.text ++ i4bytes r.nstrt))))) ++
      (i4bytes r.nndlay ++ (i4bytes r.ilay ++ (wordsBytes r.data ++ S))) := by
    simp [encURec, List.append_assoc]
  rw [hs, getI4_peel _ _ 36 _ (by simp [ht]) hnndlay]

theorem encURec_ilay (r : URec) (S : List Nat) (h : r.wf) :
    getI4 (encURec r ++ S) 40 = r.ilay := by
  obtain ⟨ht, hkstp, hkper, hnstrt, hnndlay, hilay, -⟩ := h
  have hs : encURec r ++ S =
      (i4bytes r.kstp ++ (i4bytes r.kper ++ (wordBytes r.pertim ++
        (wordBytes r.totim ++ (r.text ++ (i4bytes r.nstrt ++ i4bytes r.nndlay)))))) ++
      (i4bytes r.ilay ++ (wordsBytes r.data ++ S)) := by
    simp [encURec, List.append_assoc]
  rw [hs, getI4_peel _ _ 40 _ (by simp [ht]) hilay]

theorem encURec_data (r : URec) (S : List Nat) (h : r.wf) :
    chunkWords (getBytes (encURec r ++ S) 44 (4 * r.data.length)) = r.data := by
  obtain ⟨ht, hkstp, hkper, hnstrt, hnndlay, hilay, hlen, hws⟩ := h
  have hs : encURec r ++ S =
      (i4bytes r.kstp ++ (i4bytes r.kper ++ (wordBytes r.pertim ++
        (wordBytes r.totim ++ (r.text ++ (i4bytes r.nstrt ++ (i4bytes r.nndlay ++
          i4bytes r.ilay))))))) ++ (wordsBytes r.data ++ S) := by
    simp [encURec, List.append_assoc]
  rw [hs, getBytes_peel _ _ _ 44 _ (by simp [ht]) (by simp),
    chunkWords_wordsBytes _ hws]

theorem encHRec_length (r : HRec) (nrow ncol : Nat) (h : r.wf nrow ncol) :
    (encHRec r).length = hdsRecBytes nrow ncol := by
  obtain ⟨ht, hkstp, hkper, htot, hlen, -⟩ := h
  simp [encHRec, ht, hlen, hdsRecBytes]
  omega

theorem encHRec_kstp (r : HRec) (S : List Nat) (nrow ncol : Nat) (h : r.wf nrow ncol) :
    getI4 (encHRec r ++ S) 0 = r.kstp := by
  obtain ⟨ht, hkstp, -⟩ := h
  have hs : encHRec r ++ S = i4bytes r.kstp ++
      (i4bytes r.kper ++ (wordBytes r.pertim ++ (wordBytes r.totim ++ (r.text ++
        (i4bytes r.ncolf ++ (i4bytes r.nrowf ++ (i4bytes r.ilayf ++
          (wordsBytes r.data ++ S)))))))) := by
    simp [encHRec, List.append_assoc]
  rw [hs, getI4_i4bytes _ hkstp]

theorem encHRec_kper (r : HRec) (S : List Nat) (nrow ncol : Nat) (h : r.wf nrow ncol) :
    getI4 (encHRec r ++ S) 4 = r.kper := by
  obtain ⟨ht, hkstp, hkper, -⟩ := h
  have hs : encHRec r ++ S = i4bytes r.kstp ++
      (i4bytes r.kper ++ (wordBytes r.pertim ++ (wordBytes r.totim ++ (r.text ++
        (i4bytes r.ncolf ++ (i4bytes r.nrowf ++ (i4bytes r.ilayf ++
          (wordsBytes r.data ++ S)))))))) := by
    simp [encHRec, List.append_assoc]
  rw [hs, getI4_peel _ _ 4 _ (by simp) hkper]

theorem encHRec_totim (r : HRec) (S : List Nat) (nrow ncol : Nat) (h : r.wf nrow ncol) :
    getWord (encHRec r ++ S) 12 = r.totim := by
  obtain ⟨ht, hkstp, hkper, htot, -⟩ := h
  have hs : encHRec r ++ S =
      (i4bytes r.kstp ++ (i4bytes r.kper ++ wordBytes r.pertim)) ++
      (wordBytes r.totim ++ (r.text ++ (i4bytes r.ncolf ++ (i4bytes r.nrowf ++
        (i4bytes r.ilayf ++ (wordsBytes r.data ++ S)))))) := by
    simp [encHRec, List.append_assoc]
  rw [hs, getWord_peel _ _ 12 _ (by simp) htot]

theorem encHRec_data (r : HRec) (S : List Nat) (nrow ncol : Nat) (h : r.wf nrow ncol) :
    chunkWords (getBytes (encHRec r ++ S) 44 (4 * (nrow * ncol))) = r.data := by
  obtain ⟨ht, hkstp, hkper, htot, hlen, hws⟩ := h
  have hs : encHRec r ++ S =
      (i4bytes r.kstp ++ (i4bytes r.kper ++ (wordBytes r.pertim ++
        (wordBytes r.totim ++ (r.text ++ (i4bytes r.ncolf ++ (i4bytes r.nrowf ++
          i4bytes r.ilayf))))))) ++ (wordsBytes r.data ++ S) := by
    simp [encHRec, List.append_assoc]
  rw [hs, getBytes_peel _ _ _ 44 _ (by simp [ht]) (by simp [hlen]),
    chunkWords_wordsBytes _ hws]

theorem encBRec_length (r : BRec) (nlay nrow ncol : Nat) (h : r.wf nlay nrow ncol) :
    (encBRec r).length = cbbRecBytes nlay nrow ncol := by
  obtain ⟨ht, hkstp, hkper, hlen, -⟩ := h
  simp [encBRec, ht, hlen, cbbRecBytes]
  omega

theorem encBRec_kstp (r : BRec) (S : List Nat) (nlay nrow ncol : Nat)
    (h : r.wf nlay nrow ncol) : getI4 (encBRec r ++ S) 0 = r.kstp := by
  obtain ⟨ht, hkstp, -⟩ := h
  have hs : encBRec r ++ S = i4bytes r.kstp ++
      (i4bytes r.kper ++ (r.text ++ (i4bytes r.ncolf ++ (i4bytes r.nrowf ++
        (i4bytes r.nlayf ++ (wordsBytes r.data ++ S)))))) := by
    simp [encBRec, List.append_assoc]
  rw [hs, getI4_i4bytes _ hkstp]

theorem encBRec_kper (r : BRec) (S : List Nat) (nlay nrow ncol : Nat)
    (h : r.wf nlay nrow ncol) : getI4 (encBRec r ++ S) 4 = r.kper := by
  obtain ⟨ht, hkstp, hkper, -⟩ := h
  have hs : encBRec r ++ S = i4bytes r.kstp ++
      (i4bytes r.kper ++ (r.text ++ (i4bytes r.ncolf ++ (i4bytes r.nrowf ++
        (i4bytes r.nlayf ++ (wordsBytes r.data ++ S)))))) := by
    simp [encBRec, List.append_assoc]
  rw [hs, getI4_peel _ _ 4 _ (by simp) hkper]

theorem encBRec_text (r : BRec) (S : List Nat) (nlay nrow ncol : Nat)
    (h : r.wf nlay nrow ncol) : getBytes (encBRec r ++ S) 8 16 = r.text := by
  obtain ⟨ht, hkstp, hkper, -⟩ := h
  have hs : encBRec r ++ S = (i4bytes r.kstp ++ i4bytes r.kper) ++
      (r.text ++ (i4bytes r.ncolf ++ (i4bytes r.nrowf ++
        (i4bytes r.nlayf ++ (wordsBytes r.data ++ S))))) := by
    simp [encBRec, List.append_assoc]
  rw [hs, getBytes_peel _ _ _ 8 _ (by simp) ht]

theorem encBRec_data (r : BRec) (S : List Nat) (nlay nrow ncol : Nat)
    (h : r.wf nlay nrow ncol) :
    chunkWords (getBytes (encBRec r ++ S) 36 (4 * (nlay * nrow * ncol))) = r.data := by
  obtain ⟨ht, hkstp, hkper, hlen, hws⟩ := h
  have hs : encBRec r ++ S =
      (i4bytes r.kstp ++ (i4bytes r.kper ++ (r.text ++ (i4bytes r.ncolf ++
        (i4bytes r.nrowf ++ i4bytes r.nlayf))))) ++ (wordsBytes r.data ++ S) := by
    simp [encBRec, List.append_assoc]
  rw [hs, getBytes_peel _ _ _ 36 _ (by simp [ht]) (by simp [hlen]),
    chunkWords_wordsBytes _ hws]

theorem encUBRec_length (r : UBRec) (h : r.wf) :
    (encUBRec r).length = 36 + 4 * r.data.length := by
  obtain ⟨ht, -⟩ := h
  simp [encUBRec, ht]
  omega

theorem encUBRec_kstp (r : UBRec) (S : List Nat) (h : r.wf) :
    getI4 (encUBRec r ++ S) 0 = r.kstp := by
  obtain ⟨ht, hkstp, -⟩ := h
  have hs : encUBRec r ++ S = i4bytes r.kstp ++
      (i4bytes r.kper ++ (r.text ++ (i4bytes r.nval ++ (i4bytes r.one ++
        (i4bytes r.icode ++ (wordsBytes r.data ++ S)))))) := by
    simp [encUBRec, List.append_assoc]
  rw [hs, getI4_i4bytes _ hkstp]

theorem encUBRec_kper (r : UBRec) (S : List Nat) (h : r.wf) :
    getI4 (encUBRec r ++ S) 4 = r.kper := by
  obtain ⟨ht, hkstp, hkper, -⟩ := h
  have hs : encUBRec r ++ S = i4bytes r.kstp ++
      (i4bytes r.kper ++ (r.text ++ (i4bytes r.nval ++ (i4bytes r.one ++
        (i4bytes r.icode ++ (wordsBytes r.data ++ S)))))) := by
    simp [encUBRec, List.append_assoc]
  rw [hs, getI4_peel _ _ 4 _ (by simp) hkper]

theorem encUBRec_text (r : UBRec) (S : List Nat) (h : r.wf) :
    getBytes (encUBRec r ++ S) 8 16 = r.text := by
  obtain ⟨ht, hkstp, hkper, -⟩ := h
  have hs : encUBRec r ++ S = (i4bytes r.kstp ++ i4bytes r.kper) ++
      (r.text ++ (i4bytes r.nval ++ (i4bytes r.one ++
        (i4bytes r.icode ++ (wordsBytes r.data ++ S))))) := by
    simp [encUBRec, List.append_assoc]
  rw [hs, getBytes_peel _ _ _ 8 _ (by simp) ht]

theorem encUBRec_nval (r : UBRec) (S : List Nat) (h : r.wf) :
    getI4 (encUBRec r ++ S) 24 = r.nval := by
  obtain ⟨ht, hkstp, hkper, hnval, -⟩ := h
  have hs : encUBRec r ++ S =
      (i4bytes r.kstp ++ (i4bytes r.kper ++ r.text)) ++
      (i4bytes r.nval ++ (i4bytes r.one ++ (i4bytes r.icode ++
        (wordsBytes r.data ++ S)))) := by
    simp [encUBRec, List.append_assoc]
  rw [hs, getI4_peel _ _ 24 _ (by simp [ht]) hnval]

theorem encUBRec_data (r : UBRec) (S : List Nat) (h : r.wf) :
    chunkWords (getBytes (encUBRec r ++ S) 36 (4 * r.data.length)) = r.data := by
  obtain ⟨ht, hkstp, hkper, hnval, hpos, hlen, hws⟩ := h
  have hs : encUBRec r ++ S =
      (i4bytes r.kstp ++ (i4bytes r.kper ++ (r.text ++ (i4bytes r.nval ++
        (i4bytes r.one ++ i4bytes r.icode))))) ++ (wordsBytes r.data ++ S) := by
    simp [encUBRec, List.append_assoc]
  rw [hs, getBytes_peel _ _ _ 36 _ (by simp [ht]) (by simp),
    chunkWords_wordsBytes _ hws]

theorem parse_hdsu_loop_step (P S : List Nat) (r : URec) (hwf : r.wf)
    (fuel : Nat) (h : Option (List Nat)) (acc : List ((Int × Int) × Arr))
    (hv : List Nat) (hh : (if r.ilay = 1 then some [] else h) = some hv) :
    parse_hdsu_loop (P ++ (encURec r ++ S)) (fuel + 1) P.length h acc =
      parse_hdsu_loop (P ++ (encURec r ++ S)) fuel (P.length + (encURec r).length)
        (some (hv ++ r.data))
        (updAssoc acc (r.kper, r.kstp) (Arr.owned (hv ++ r.data))) := by
  have hlen := encURec_length r hwf
  have hn : (r.data.length : Int) = r.nndlay - r.nstrt + 1 := hwf.2.2.2.2.2.2.1
  have h36 : getI4 (P ++ (encURec r ++ S)) (P.length + 36) = r.nndlay := by
    rw [getI4_skip, encURec_nndlay r S hwf]
  have h32 : getI4 (P ++ (encURec r ++ S)) (P.length + 32) = r.nstrt := by
    rw [getI4_skip, encURec_nstrt r S hwf]
  have h40 : getI4 (P ++ (encURec r ++ S)) (P.length + 40) = r.ilay := by
    rw [getI4_skip, encURec_ilay r S hwf]
  have h04 : getI4 (P ++ (encURec r ++ S)) (P.length + 4) = r.kper := by
    rw [getI4_skip, encURec_kper r S hwf]
  have h00 : getI4 (P ++ (encURec r ++ S)) P.length = r.kstp := by
    have := getI4_skip P (encURec r ++ S) 0
    simpa [encURec_kstp r S hwf] using this
  have h44 : getBytes (P ++ (encURec r ++ S)) (P.length + 44) (4 * r.data.length) =
      getBytes (encURec r ++ S) 44 (4 * r.data.length) := getBytes_skip P _ 44 _
  have c1 : P.length < (P ++ (encURec r ++ S)).length := by
    simp only [List.length_append, hlen]
    omega
  have c2 : P.length + 44 ≤ (P ++ (encURec r ++ S)).length := by
    simp only [List.length_append, hlen]
    omega
  simp only [parse_hdsu_loop, h36, h32, h40, h04, h00]
  rw [← hn]
  have hnn : ¬ ((r.data.length : Int) < 0) := by omega
  have hto : ((r.data.length : Int)).toNat = r.data.length := by omega
  rw [if_pos c1, if_pos c2, if_neg hnn, hto]
  have c3 : P.length + 44 + 4 * r.data.length ≤ (P ++ (encURec r ++ S)).length := by
    simp only [List.length_append, hlen]
    omega
  rw [if_pos c3, hh]
  have hdata : chunkWords (getBytes (P ++ (encURec r ++ S)) (P.length + 44)
      (4 * r.data.length)) = r.data := by
    rw [h44, encURec_data r S hwf]
  rw [hdata]
  have hoff : P.length + 44 + 4 * r.data.length = P.length + (encURec r).length := by
    omega
  rw [hoff]

theorem parse_hdsu_loop_chain (rs : List URec) (K : Int × Int) :
    (∀ r ∈ rs, URec.wf r) → (∀ r ∈ rs, r.ilay ≠ 1) →
    (∀ r ∈ rs, (r.kper, r.kstp) = K) → rs ≠ [] →
    ∀ (P S : List Nat) (fuel : Nat) (pre : List Nat) (acc : List ((Int × Int) × Arr)),
    parse_hdsu_loop (P ++ (encUGroup rs ++ S)) (fuel + rs.length) P.length (some pre) acc =
      parse_hdsu_loop (P ++ (encUGroup rs ++ S)) fuel (P.length + (encUGroup rs).length)
        (some (pre ++ uGroupData rs))
        (updAssoc acc K (Arr.owned (pre ++ uGroupData rs))) := by
  induction rs with
  | nil =>
    intro _ _ _ hne
    exact absurd rfl hne
  | cons r rest ih =>
    intro hwf hilay hkey hne P S fuel pre acc
    have hwr : URec.wf r := hwf r (by simp)
    have hir : r.ilay ≠ 1 := hilay r (by simp)
    have hkr : ((r.kper, r.kstp) : Int × Int) = K := hkey r (by simp)
    have hh : (if r.ilay = 1 then some [] else some pre) = some pre := if_neg hir
    by_cases hrest : rest = []
    · subst hrest
      have henc : encUGroup [r] = encURec r := by
        simp [encUGroup]
      have hfl : ([r] : List URec).length = 1 := by simp
      rw [hfl, henc,
        parse_hdsu_loop_step P S r hwr fuel (some pre) acc pre hh, hkr]
      simp [uGroupData]
    · have hgl : encUGroup (r :: rest) = encURec r ++ encUGroup rest := by
        simp [encUGroup]
      have hfuel : fuel + (r :: rest).length = (fuel + rest.length) + 1 := by
        simp [List.length_cons]
        omega
      have hF : P ++ (encUGroup (r :: rest) ++ S) =
          P ++ (encURec r ++ (encUGroup rest ++ S)) := by
        rw [hgl, List.append_assoc]
      rw [hfuel, hF,
        parse_hdsu_loop_step P (encUGroup rest ++ S) r hwr (fuel + rest.length)
          (some pre) acc pre hh, hkr]
      have hP2 : P.length + (encURec r).length = (P ++ encURec r).length := by
        simp
      have hF2 : P ++ (encURec r ++ (encUGroup rest ++ S)) =
          (P ++ encURec r) ++ (encUGroup rest ++ S) := by
        rw [List.append_assoc]
      rw [hP2, hF2,
        ih (fun x hx => hwf x (by simp [hx])) (fun x hx => hilay x (by simp [hx]))
          (fun x hx => hkey x (by simp [hx])) hrest (P ++ encURec r) S fuel (pre ++ r.data)
          (updAssoc acc K (Arr.owned (pre ++ r.data))),
        updAssoc_collapse]
      have hd : (pre ++ r.data) ++ uGroupData rest = pre ++ uGroupData (r :: rest) := by
        simp [uGroupData, List.append_assoc]
      have ho : (P ++ encURec r).length + (encUGroup rest).length =
          P.length + (encUGroup (r :: rest)).length := by
        rw [hgl]
        simp [List.length_append]
        omega
      rw [hd, ho]

theorem uGroupWf_tail_ilay (r0 : URec) (rest : List URec) (hord :
    ∀ i : Fin (r0 :: rest).length, ((r0 :: rest).get i).ilay = (i : Nat) + 1) :
    ∀ r ∈ rest, r.ilay ≠ 1 := by
  intro r hr
  obtain ⟨i, hi⟩ := List.mem_iff_get.mp hr
  have h2 := hord ⟨(i : Nat) + 1, by simp only [List.length_cons]; have := i.isLt; omega⟩
  simp only [List.get_cons_succ] at h2
  have : (rest.get ⟨(i : Nat), by omega⟩) = r := by
    have : (⟨(i : Nat), by omega⟩ : Fin rest.length) = i := by
      apply Fin.ext
      rfl
    rw [this, hi]
  rw [this] at h2
  rw [h2]
  intro hcon
  omega

theorem parse_hdsu_loop_group (g : List URec) (hg : uGroupWf g)
    (P S : List Nat) (fuel : Nat) (h : Option (List Nat))
    (acc : List ((Int × Int) × Arr)) :
    parse_hdsu_loop (P ++ (encUGroup g ++ S)) (fuel + g.length) P.length h acc =
      parse_hdsu_loop (P ++ (encUGroup g ++ S)) fuel (P.length + (encUGroup g).length)
        (some (uGroupData g))
        (updAssoc acc (uKey g) (Arr.owned (uGroupData g))) := by
  obtain ⟨hne, hwf, hord, hkey⟩ := hg
  obtain ⟨r0, rest, rfl⟩ := List.exists_cons_of_ne_nil hne
  have hwr0 : URec.wf r0 := hwf r0 (by simp)
  have hil0 : r0.ilay = 1 := by
    have := hord ⟨0, by simp⟩
    simpa using this
  have hh : (if r0.ilay = 1 then some [] else h) = some ([] : List Nat) := if_pos hil0
  have hukey : uKey (r0 :: rest) = (r0.kper, r0.kstp) := rfl
  by_cases hrest : rest = []
  · subst hrest
    have henc : encUGroup [r0] = encURec r0 := by
      simp [encUGroup]
    have hfl : ([r0] : List URec).length = 1 := by simp
    rw [hfl, henc,
      parse_hdsu_loop_step P S r0 hwr0 fuel h acc [] hh]
    simp [uGroupData, hukey]
  · have hgl : encUGroup (r0 :: rest) = encURec r0 ++ encUGroup rest := by
      simp [encUGroup]
    have hfuel : fuel + (r0 :: rest).length = (fuel + rest.length) + 1 := by
      simp [List.length_cons]
      omega
    have hF : P ++ (encUGroup (r0 :: rest) ++ S) =
        P ++ (encURec r0 ++ (encUGroup rest ++ S)) := by
      rw [hgl, List.append_assoc]
    rw [hfuel, hF,
      parse_hdsu_loop_step P (encUGroup rest ++ S) r0 hwr0 (fuel + rest.length) h acc [] hh]
    simp only [List.nil_append]
    have hP2 : P.length + (encURec r0).length = (P ++ encURec r0).length := by
      simp
    have hF2 : P ++ (encURec r0 ++ (encUGroup rest ++ S)) =
        (P ++ encURec r0) ++ (encUGroup rest ++ S) := by
      rw [List.append_assoc]
    have hkrest : ∀ r ∈ rest, ((r.kper, r.kstp) : Int × Int) = (r0.kper, r0.kstp) := by
      intro r hr
      have := hkey r (by simp [hr])
      rw [hukey] at this
      exact Prod.ext this.1 this.2
    rw [hP2, hF2,
      parse_hdsu_loop_chain rest (r0.kper, r0.kstp)
        (fun x hx => hwf x (by simp [hx])) (uGroupWf_tail_ilay r0 rest hord)
        hkrest hrest (P ++ encURec r0) S fuel r0.data
        (updAssoc acc (r0.kper, r0.kstp) (Arr.owned r0.data)),
      updAssoc_collapse]
    have hd : r0.data ++ uGroupData rest = uGroupData (r0 :: rest) := by
      simp [uGroupData]
    have ho : (P ++ encURec r0).length + (encUGroup rest).length =
        P.length + (encUGroup (r0 :: rest)).length := by
      rw [hgl]
      simp [List.length_append]
      omega
    rw [hd, ho, hukey]

theorem foldl_updAssoc_fresh {α β : Type} [DecidableEq α] :
    ∀ (kvs : List (α × β)) (acc : List (α × β)),
    (∀ q ∈ kvs, ∀ p ∈ acc, p.1 ≠ q.1) → (kvs.map Prod.fst).Nodup →
    kvs.foldl (fun a q => updAssoc a q.1 q.2) acc = acc ++ kvs := by
  intro kvs
  induction kvs with
  | nil =>
    intro acc _ _
    simp
  | cons q rest ih =>
    intro acc hfresh hnd
    simp only [List.foldl_cons]
    rw [updAssoc_fresh acc q.1 q.2 (fun p hp => hfresh q (by simp) p hp)]
    have hnd2 : (rest.map Prod.fst).Nodup := by
      simp only [List.map_cons, List.nodup_cons] at hnd
      exact hnd.2
    have hq1 : q.1 ∉ rest.map Prod.fst := by
      simp only [List.map_cons, List.nodup_cons] at hnd
      exact hnd.1
    have hfresh2 : ∀ x ∈ rest, ∀ p ∈ acc ++ [q], p.1 ≠ x.1 := by
      intro x hx p hp
      rcases List.mem_append.mp hp with hin | hin
      · exact hfresh x (by simp [hx]) p hin
      · simp only [List.mem_singleton] at hin
        subst hin
        intro hcon
        exact hq1 (by rw [hcon]; exact List.mem_map_of_mem Prod.fst hx)
    rw [ih (acc ++ [q]) hfresh2 hnd2]
    simp

theorem uGroup_length_le (g : List URec) (hwf : ∀ r ∈ g, URec.wf r) :
    g.length ≤ (encUGroup g).length := by
  induction g with
  | nil => simp [encUGroup]
  | cons r rs ih =>
    have hr : URec.wf r := hwf r (by simp)
    have h2 : rs.length ≤ (encUGroup rs).length := ih (fun x hx => hwf x (by simp [hx]))
    have h3 : encUGroup (r :: rs) = encURec r ++ encUGroup rs := by
      simp [encUGroup]
    rw [h3]
    have h4 := encURec_length r hr
    simp only [List.length_append, List.length_cons, h4]
    omega

theorem totURecs_le (gs : List (List URec)) (hwf : ∀ g ∈ gs, ∀ r ∈ g, URec.wf r) :
    totURecs gs ≤ (encUFile gs).length := by
  induction gs with
  | nil => simp [totURecs, encUFile]
  | cons g rest ih =>
    have h1 : g.length ≤ (encUGroup g).length :=
      uGroup_length_le g (fun r hr => hwf g (by simp) r hr)
    have h5 : encUFile (g :: rest) = encUGroup g ++ encUFile rest := by
      simp [encUFile]
    have h6 : totURecs (g :: rest) = g.length + totURecs rest := by
      simp [totURecs]
    have h7 := ih (fun g2 hg2 r2 hr2 => hwf g2 (by simp [hg2]) r2 hr2)
    rw [h5, h6]
    simp only [List.length_append]
    omega

theorem parse_hdsu_loop_groups (gs : List (List URec)) :
    (∀ g ∈ gs, uGroupWf g) →
    ∀ (P : List Nat) (fuel : Nat) (h : Option (List Nat))
      (acc : List ((Int × Int) × Arr)),
    parse_hdsu_loop (P ++ encUFile gs) (fuel + 1 + totURecs gs) P.length h acc =
      some (gs.foldl (fun a g => updAssoc a (uKey g) (Arr.owned (uGroupData g))) acc) := by
  induction gs with
  | nil =>
    intro _ P fuel h acc
    simp only [encUFile, List.map_nil, List.flatten_nil, List.append_nil, totURecs,
      List.sum_nil, Nat.add_zero, List.foldl_nil]
    simp [parse_hdsu_loop]
  | cons g rest ih =>
    intro hwf P fuel h acc
    have hg : uGroupWf g := hwf g (by simp)
    have h5 : encUFile (g :: rest) = encUGroup g ++ encUFile rest := by
      simp [encUFile]
    have h6 : fuel + 1 + totURecs (g :: rest) =
        (fuel + 1 + totURecs rest) + g.length := by
      simp [totURecs]
      omega
    have hF : P ++ encUFile (g :: rest) = P ++ (encUGroup g ++ encUFile rest) := by
      rw [h5]
    rw [hF, h6,
      parse_hdsu_loop_group g hg P (encUFile rest) (fuel + 1 + totURecs rest) h acc]
    have hP2 : P.length + (encUGroup g).length = (P ++ encUGroup g).length := by
      simp
    have hF2 : P ++ (encUGroup g ++ encUFile rest) =
        (P ++ encUGroup g) ++ encUFile rest := by
      rw [List.append_assoc]
    rw [hP2, hF2,
      ih (fun g2 hg2 => hwf g2 (by simp [hg2])) (P ++ encUGroup g)
        fuel (some (uGroupData g)) (updAssoc acc (uKey g) (Arr.owned (uGroupData g)))]
    simp

theorem encHGroup_length (g : List HRec) (nrow ncol : Nat)
    (hwf : ∀ r ∈ g, r.wf nrow ncol) :
    (encHGroup g).length = g.length * hdsRecBytes nrow ncol := by
  induction g with
  | nil => simp [encHGroup]
  | cons r rest ih =>
    have h3 : encHGroup (r :: rest) = encHRec r ++ encHGroup rest := by
      simp [encHGroup]
    rw [h3]
    have h4 := encHRec_length r nrow ncol (hwf r (by simp))
    have h5 := ih (fun x hx => hwf x (by simp [hx]))
    simp only [List.length_append, List.length_cons, h4, h5]
    ring

theorem hdsStack_enc (g : List HRec) (nrow ncol : Nat) :
    (∀ r ∈ g, r.wf nrow ncol) →
    ∀ (P S : List Nat),
    hdsStack (P ++ (encHGroup g ++ S)) P.length g.length nrow ncol = hGroupData g := by
  induction g with
  | nil =>
    intro _ P S
    simp [hdsStack, hGroupData]
  | cons r rest ih =>
    intro hwf P S
    have hwr : r.wf nrow ncol := hwf r (by simp)
    have hrl := encHRec_length r nrow ncol hwr
    have hF : P ++ (encHGroup (r :: rest) ++ S) =
        P ++ (encHRec r ++ (encHGroup rest ++ S)) := by
      simp [encHGroup, List.append_assoc]
    rw [hF]
    unfold hdsStack
    rw [List.length_cons, List.range_succ_eq_map]
    simp only [List.map_cons, List.flatten_cons, List.map_map]
    have hfirst : chunkWords (getBytes (P ++ (encHRec r ++ (encHGroup rest ++ S)))
        (P.length + 0 * hdsRecBytes nrow ncol + 44) (4 * (nrow * ncol))) = r.data := by
      have h0 : P.length + 0 * hdsRecBytes nrow ncol + 44 = P.length + 44 := by omega
      rw [h0, getBytes_skip, encHRec_data r _ nrow ncol hwr]
    rw [hfirst]
    have hmap : (List.range rest.length).map
        ((fun i => chunkWords (getBytes (P ++ (encHRec r ++ (encHGroup rest ++ S)))
          (P.length + i * hdsRecBytes nrow ncol + 44) (4 * (nrow * ncol)))) ∘ Nat.succ) =
        (List.range rest.length).map
        (fun i => chunkWords (getBytes ((P ++ encHRec r) ++ (encHGroup rest ++ S))
          ((P ++ encHRec r).length + i * hdsRecBytes nrow ncol + 44) (4 * (nrow * ncol)))) := by
      apply List.map_congr_left
      intro i hi
      simp only [Function.comp]
      have he : P ++ (encHRec r ++ (encHGroup rest ++ S)) =
          (P ++ encHRec r) ++ (encHGroup rest ++ S) := by
        rw [List.append_assoc]
      have harith : P.length + Nat.succ i * hdsRecBytes nrow ncol + 44 =
          (P ++ encHRec r).length + i * hdsRecBytes nrow ncol + 44 := by
        simp only [List.length_append, hrl, Nat.succ_eq_add_one]
        ring
      rw [he, harith]
    rw [hmap]
    have := ih (fun x hx => hwf x (by simp [hx])) (P ++ encHRec r) S
    unfold hdsStack at this
    rw [this]
    simp [hGroupData]

theorem parse_hds_loop_step (g : List HRec) (nlay nrow ncol : Nat)
    (hlen : g.length = nlay) (hpos : 0 < nlay)
    (hwf : ∀ r ∈ g, r.wf nrow ncol) (P S : List Nat) (fuel : Nat)
    (hds : List ((Int × Int) × Arr)) (ts : List Nat) :
    parse_hds_loop (P ++ (encHGroup g ++ S)) nlay nrow ncol (fuel + 1) P.length hds ts =
      parse_hds_loop (P ++ (encHGroup g ++ S)) nlay nrow ncol fuel
        (P.length + (encHGroup g).length)
        (updAssoc hds (hKey g) (Arr.owned (hGroupData g))) (ts ++ [hTotim g]) := by
  have hgl := encHGroup_length g nrow ncol hwf
  obtain ⟨r0, rest, rfl⟩ := List.exists_cons_of_ne_nil
    (by intro hcon; rw [hcon] at hlen; simp at hlen; omega : g ≠ [])
  have hwr0 : r0.wf nrow ncol := hwf r0 (by simp)
  have hrl := encHRec_length r0 nrow ncol hwr0
  have hF : P ++ (encHGroup (r0 :: rest) ++ S) =
      P ++ (encHRec r0 ++ (encHGroup rest ++ S)) := by
    simp [encHGroup, List.append_assoc]
  have h04 : getI4 (P ++ (encHGroup (r0 :: rest) ++ S)) (P.length + 4) = r0.kper := by
    rw [hF, getI4_skip, encHRec_kper r0 _ nrow ncol hwr0]
  have h00 : getI4 (P ++ (encHGroup (r0 :: rest) ++ S)) P.length = r0.kstp := by
    rw [hF]
    have := getI4_skip P (encHRec r0 ++ (encHGroup rest ++ S)) 0
    simpa [encHRec_kstp r0 _ nrow ncol hwr0] using this
  have h12 : getWord (P ++ (encHGroup (r0 :: rest) ++ S)) (P.length + 12) = r0.totim := by
    rw [hF, getWord_skip, encHRec_totim r0 _ nrow ncol hwr0]
  have hrecb : 0 < hdsRecBytes nrow ncol := by
    simp [hdsRecBytes]
  have c1 : P.length < (P ++ (encHGroup (r0 :: rest) ++ S)).length := by
    simp only [List.length_append, hgl]
    have : 0 < (r0 :: rest).length * hdsRecBytes nrow ncol := by
      apply Nat.mul_pos
      · simp
      · exact hrecb
    omega
  have c2 : P.length + nlay * hdsRecBytes nrow ncol ≤
      (P ++ (encHGroup (r0 :: rest) ++ S)).length := by
    simp only [List.length_append, hgl, ← hlen]
    omega
  have hstack : hdsStack (P ++ (encHGroup (r0 :: rest) ++ S)) P.length nlay nrow ncol =
      hGroupData (r0 :: rest) := by
    rw [← hlen]
    exact hdsStack_enc (r0 :: rest) nrow ncol hwf P S
  simp only [parse_hds_loop, h04, h00, h12]
  rw [if_pos c1, if_pos c2, hstack]
  have hoff : P.length + nlay * hdsRecBytes nrow ncol =
      P.length + (encHGroup (r0 :: rest)).length := by
    rw [hgl, hlen]
  rw [hoff]
  rfl

theorem hFile_groups_le (gs : List (List HRec)) (nlay nrow ncol : Nat)
    (hwf : ∀ g ∈ gs, g.length = nlay ∧ ∀ r ∈ g, r.wf nrow ncol) (hpos : 0 < nlay) :
    gs.length ≤ (encHFile gs).length := by
  induction gs with
  | nil => simp [encHFile]
  | cons g rest ih =>
    have h5 : encHFile (g :: rest) = encHGroup g ++ encHFile rest := by
      simp [encHFile]
    have hgl := encHGroup_length g nrow ncol (hwf g (by simp)).2
    have hglen : g.length = nlay := (hwf g (by simp)).1
    have h7 := ih (fun g2 hg2 => hwf g2 (by simp [hg2]))
    rw [h5]
    simp only [List.length_append, List.length_cons, hgl, hglen]
    have : 0 < nlay * hdsRecBytes nrow ncol := by
      apply Nat.mul_pos hpos
      simp [hdsRecBytes]
    omega

theorem parse_hds_loop_groups (gs : List (List HRec)) (nlay nrow ncol : Nat)
    (hpos : 0 < nlay) :
    (∀ g ∈ gs, g.length = nlay ∧ ∀ r ∈ g, r.wf nrow ncol) →
    ∀ (P : List Nat) (fuel : Nat) (hds : List ((Int × Int) × Arr)) (ts : List Nat),
    parse_hds_loop (P ++ encHFile gs) nlay nrow ncol (fuel + 1 + gs.length) P.length hds ts =
      some (gs.foldl (fun a g => updAssoc a (hKey g) (Arr.owned (hGroupData g))) hds,
        ts ++ gs.map hTotim) := by
  induction gs with
  | nil =>
    intro _ P fuel hds ts
    simp only [encHFile, List.map_nil, List.flatten_nil, List.append_nil, List.length_nil,
      Nat.add_zero, List.foldl_nil]
    simp [parse_hds_loop]
  | cons g rest ih =>
    intro hwf P fuel hds ts
    have hg := hwf g (by simp)
    have h5 : encHFile (g :: rest) = encHGroup g ++ encHFile rest := by
      simp [encHFile]
    have h6 : fuel + 1 + (g :: rest).length = ((fuel + 1 + rest.length)) + 1 := by
      simp [List.length_cons]
      omega
    have hF : P ++ encHFile (g :: rest) = P ++ (encHGroup g ++ encHFile rest) := by
      rw [h5]
    rw [hF, h6,
      parse_hds_loop_step g nlay nrow ncol hg.1 hpos hg.2 P (encHFile rest)
        (fuel + 1 + rest.length) hds ts]
    have hP2 : P.length + (encHGroup g).length = (P ++ encHGroup g).length := by
      simp
    have hF2 : P ++ (encHGroup g ++ encHFile rest) = (P ++ encHGroup g) ++ encHFile rest := by
      rw [List.append_assoc]
    rw [hP2, hF2,
      ih (fun g2 hg2 => hwf g2 (by simp [hg2])) (P ++ encHGroup g) fuel
        (updAssoc hds (hKey g) (Arr.owned (hGroupData g))) (ts ++ [hTotim g])]
    simp

theorem parse_cbb_loop_step (r : BRec) (nlay nrow ncol : Nat)
    (hwf : r.wf nlay nrow ncol) (items : Option (List (List Nat)))
    (P S : List Nat) (fuel : Nat)
    (cbb : List (List Nat × List ((Int × Int) × Arr))) :
    parse_cbb_loop (P ++ (encBRec r ++ S)) nlay nrow ncol items (fuel + 1) P.length cbb =
      parse_cbb_loop (P ++ (encBRec r ++ S)) nlay nrow ncol items fuel
        (P.length + (encBRec r).length)
        (if keepRec items (stripLabel r.text) then
          cbbStore cbb (stripLabel r.text) (r.kper, r.kstp) (Arr.owned r.data)
        else cbb) := by
  have hbl := encBRec_length r nlay nrow ncol hwf
  have h04 : getI4 (P ++ (encBRec r ++ S)) (P.length + 4) = r.kper := by
    rw [getI4_skip, encBRec_kper r S nlay nrow ncol hwf]
  have h00 : getI4 (P ++ (encBRec r ++ S)) P.length = r.kstp := by
    have := getI4_skip P (encBRec r ++ S) 0
    simpa [encBRec_kstp r S nlay nrow ncol hwf] using this
  have h08 : getBytes (P ++ (encBRec r ++ S)) (P.length + 8) 16 = r.text := by
    rw [getBytes_skip, encBRec_text r S nlay nrow ncol hwf]
  have h36 : chunkWords (getBytes (P ++ (encBRec r ++ S)) (P.length + 36)
      (4 * (nlay * nrow * ncol))) = r.data := by
    rw [getBytes_skip, encBRec_data r S nlay nrow ncol hwf]
  have c1 : P.length < (P ++ (encBRec r ++ S)).length := by
    simp only [List.length_append, hbl, cbbRecBytes]
    omega
  have c2 : P.length + cbbRecBytes nlay nrow ncol ≤ (P ++ (encBRec r ++ S)).length := by
    simp only [List.length_append, hbl]
    omega
  simp only [parse_cbb_loop, h04, h00, h08, h36]
  rw [if_pos c1, if_pos c2]
  have hoff : P.length + cbbRecBytes nlay nrow ncol = P.length + (encBRec r).length := by
    rw [hbl]
  rw [hoff]
  congr 1
  unfold keepRec
  cases htr : itemsTruthy items && itemsHas items (stripLabel r.text) with
  | true => simp [htr, Arr.copy, Arr.vals]
  | false =>
    simp only [htr, Bool.false_or, if_false]
    cases hnt : !itemsTruthy items with
    | true => simp [Arr.copy, Arr.vals]
    | false => simp

theorem encBFile_recs_le (rs : List BRec) (nlay nrow ncol : Nat)
    (hwf : ∀ r ∈ rs, r.wf nlay nrow ncol) :
    rs.length ≤ (encBFile rs).length := by
  induction rs with
  | nil => simp [encBFile]
  | cons r rest ih =>
    have h5 : encBFile (r :: rest) = encBRec r ++ encBFile rest := by
      simp [encBFile]
    have hbl := encBRec_length r nlay nrow ncol (hwf r (by simp))
    have h7 := ih (fun x hx => hwf x (by simp [hx]))
    rw [h5]
    simp only [List.length_append, List.length_cons, hbl, cbbRecBytes]
    omega

theorem parse_cbb_loop_recs (rs : List BRec) (nlay nrow ncol : Nat) :
    (∀ r ∈ rs, r.wf nlay nrow ncol) →
    ∀ (items : Option (List (List Nat))) (P : List Nat) (fuel : Nat)
      (cbb : List (List Nat × List ((Int × Int) × Arr))),
    parse_cbb_loop (P ++ encBFile rs) nlay nrow ncol items (fuel + 1 + rs.length)
        P.length cbb =
      some (rs.foldl (fun a r => if keepRec items (stripLabel r.text) then
        cbbStore a (stripLabel r.text) (r.kper, r.kstp) (Arr.owned r.data) else a) cbb) := by
  induction rs with
  | nil =>
    intro _ items P fuel cbb
    simp only [encBFile, List.map_nil, List.flatten_nil, List.append_nil, List.length_nil,
      Nat.add_zero, List.foldl_nil]
    simp [parse_cbb_loop]
  | cons r rest ih =>
    intro hwf items P fuel cbb
    have hr := hwf r (by simp)
    have h5 : encBFile (r :: rest) = encBRec r ++ encBFile rest := by
      simp [encBFile]
    have h6 : fuel + 1 + (r :: rest).length = ((fuel + 1 + rest.length)) + 1 := by
      simp [List.length_cons]
      omega
    have hF : P ++ encBFile (r :: rest) = P ++ (encBRec r ++ encBFile rest) := by
      rw [h5]
    rw [hF, h6,
      parse_cbb_loop_step r nlay nrow ncol hr items P (encBFile rest)
        (fuel + 1 + rest.length) cbb]
    have hP2 : P.length + (encBRec r).length = (P ++ encBRec r).length := by
      simp
    have hF2 : P ++ (encBRec r ++ encBFile rest) = (P ++ encBRec r) ++ encBFile rest := by
      rw [List.append_assoc]
    rw [hP2, hF2,
      ih (fun x hx => hwf x (by simp [hx])) items (P ++ encBRec r) fuel _]
    simp

theorem parse_cbbu_loop_step (r : UBRec) (hwf : r.wf)
    (items : Option (List (List Nat))) (P S : List Nat) (fuel : Nat)
    (bud : List ((List Nat × Int × Int × Int) × Arr)) :
    parse_cbbu_loop (P ++ (encUBRec r ++ S)) items (fuel + 1) P.length bud =
      parse_cbbu_loop (P ++ (encUBRec r ++ S)) items fuel
        (P.length + (encUBRec r).length)
        (if keepRec items (stripLabel r.text) then
          updAssoc bud (stripLabel r.text, r.nval, r.kper, r.kstp) (Arr.view r.data)
        else bud) := by
  have hbl := encUBRec_length r hwf
  have hnn : (r.data.length : Int) = r.nval := hwf.2.2.2.2.2.1
  have hnpos : 0 ≤ r.nval := hwf.2.2.2.2.1
  have h04 : getI4 (P ++ (encUBRec r ++ S)) (P.length + 4) = r.kper := by
    rw [getI4_skip, encUBRec_kper r S hwf]
  have h00 : getI4 (P ++ (encUBRec r ++ S)) P.length = r.kstp := by
    have := getI4_skip P (encUBRec r ++ S) 0
    simpa [encUBRec_kstp r S hwf] using this
  have h08 : getBytes (P ++ (encUBRec r ++ S)) (P.length + 8) 16 = r.text := by
    rw [getBytes_skip, encUBRec_text r S hwf]
  have h24 : getI4 (P ++ (encUBRec r ++ S)) (P.length + 24) = r.nval := by
    rw [getI4_skip, encUBRec_nval r S hwf]
  have c1 : P.length < (P ++ (encUBRec r ++ S)).length := by
    simp only [List.length_append, hbl]
    omega
  have c2 : P.length + 36 ≤ (P ++ (encUBRec r ++ S)).length := by
    simp only [List.length_append, hbl]
    omega
  simp only [parse_cbbu_loop, h04, h00, h08, h24]
  have hneg : ¬ (r.nval < 0) := by omega
  have hto : r.nval.toNat = r.data.length := by omega
  rw [if_pos c1, if_pos c2, if_neg hneg, hto]
  have c3 : P.length + 36 + 4 * r.data.length ≤ (P ++ (encUBRec r ++ S)).length := by
    simp only [List.length_append, hbl]
    omega
  rw [if_pos c3]
  have h36 : chunkWords (getBytes (P ++ (encUBRec r ++ S)) (P.length + 36)
      (4 * r.data.length)) = r.data := by
    rw [getBytes_skip, encUBRec_data r S hwf]
  rw [h36]
  have hoff : P.length + 36 + 4 * r.data.length = P.length + (encUBRec r).length := by
    rw [hbl]
    omega
  rw [hoff]
  congr 1
  unfold keepRec
  cases htr : itemsTruthy items && itemsHas items (stripLabel r.text) with
  | true => simp [htr]
  | false =>
    simp only [htr, Bool.false_or, if_false]
    cases hnt : !itemsTruthy items with
    | true => simp
    | false => simp

theorem encUBFile_recs_le (rs : List UBRec) (hwf : ∀ r ∈ rs, r.wf) :
    rs.length ≤ (encUBFile rs).length := by
  induction rs with
  | nil => simp [encUBFile]
  | cons r rest ih =>
    have h5 : encUBFile (r :: rest) = encUBRec r ++ encUBFile rest := by
      simp [encUBFile]
    have hbl := encUBRec_length r (hwf r (by simp))
    have h7 := ih (fun x hx => hwf x (by simp [hx]))
    rw [h5]
    simp only [List.length_append, List.length_cons, hbl]
    omega

theorem parse_cbbu_loop_recs (rs : List UBRec) :
    (∀ r ∈ rs, r.wf) →
    ∀ (items : Option (List (List Nat))) (P : List Nat) (fuel : Nat)
      (bud : List ((List Nat × Int × Int × Int) × Arr)),
    parse_cbbu_loop (P ++ encUBFile rs) items (fuel + 1 + rs.length) P.length bud =
      some (rs.foldl (fun a r => if keepRec items (stripLabel r.text) then
        updAssoc a (stripLabel r.text, r.nval, r.kper, r.kstp) (Arr.view r.data) else a)
        bud) := by
  induction rs with
  | nil =>
    intro _ items P fuel bud
    simp only [encUBFile, List.map_nil, List.flatten_nil, List.append_nil, List.length_nil,
      Nat.add_zero, List.foldl_nil]
    simp [parse_cbbu_loop]
  | cons r rest ih =>
    intro hwf items P fuel bud
    have hr := hwf r (by simp)
    have h5 : encUBFile (r :: rest) = encUBRec r ++ encUBFile rest := by
      simp [encUBFile]
    have h6 : fuel + 1 + (r :: rest).length = ((fuel + 1 + rest.length)) + 1 := by
      simp [List.length_cons]
      omega
    have hF : P ++ encUBFile (r :: rest) = P ++ (encUBRec r ++ encUBFile rest) := by
      rw [h5]
    rw [hF, h6,
      parse_cbbu_loop_step r hr items P (encUBFile rest) (fuel + 1 + rest.length) bud]
    have hP2 : P.length + (encUBRec r).length = (P ++ encUBRec r).length := by
      simp
    have hF2 : P ++ (encUBRec r ++ encUBFile rest) = (P ++ encUBRec r) ++ encUBFile rest := by
      rw [List.append_assoc]
    rw [hP2, hF2,
      ih (fun x hx => hwf x (by simp [hx])) items (P ++ encUBRec r) fuel _]
    simp

theorem foldl_if_filter {α β : Type} (f : β → α → β) (p : α → Bool) :
    ∀ (l : List α) (init : β),
    l.foldl (fun a x => if p x then f a x else a) init = (l.filter p).foldl f init := by
  intro l
  induction l with
  | nil =>
    intro init
    simp
  | cons x rest ih =>
    intro init
    by_cases hx : p x
    · simp [List.filter_cons, hx, ih]
    · simp [List.filter_cons, hx, ih]

theorem keepRec_none (t : List Nat) : keepRec none t = true := rfl

theorem keepRec_some (allow : List (List Nat)) (hne : allow ≠ []) (t : List Nat) :
    keepRec (some allow) t = decide (t ∈ allow) := by
  cases allow with
  | nil => exact absurd rfl hne
  | cons a rest => simp [keepRec, itemsTruthy, itemsHas]

theorem keepRec_empty (t : List Nat) : keepRec (some []) t = true := rfl

theorem cbbStore_keys (m : List (List Nat × List ((Int × Int) × Arr))) (t : List Nat)
    (k : Int × Int) (v : Arr) (s : List Nat) :
    s ∈ (cbbStore m t k v).map Prod.fst ↔ s ∈ m.map Prod.fst ∨ s = t := by
  induction m with
  | nil => simp [cbbStore]
  | cons q rest ih =>
    obtain ⟨qt, qm⟩ := q
    by_cases hq : qt = t
    · have hstep : cbbStore ((qt, qm) :: rest) t k v = (qt, updAssoc qm k v) :: rest := by
        simp [cbbStore, hq]
      rw [hstep]
      subst hq
      simp only [List.map_cons, List.mem_cons]
      tauto
    · have hstep : cbbStore ((qt, qm) :: rest) t k v = (qt, qm) :: cbbStore rest t k v := by
        simp [cbbStore, hq]
      rw [hstep]
      simp only [List.map_cons, List.mem_cons, ih]
      tauto

theorem cbbBuild_fold_keys (rs : List BRec) :
    ∀ (acc : List (List Nat × List ((Int × Int) × Arr))) (s : List Nat),
    (s ∈ (rs.foldl (fun a r => cbbStore a (stripLabel r.text) (r.kper, r.kstp)
        (Arr.owned r.data)) acc).map Prod.fst ↔
      s ∈ acc.map Prod.fst ∨ s ∈ rs.map (fun r => stripLabel r.text)) := by
  induction rs with
  | nil =>
    intro acc s
    simp
  | cons r rest ih =>
    intro acc s
    simp only [List.foldl_cons, List.map_cons, List.mem_cons]
    rw [ih, cbbStore_keys]
    tauto

theorem updAssoc_label_mem (m : List ((List Nat × Int × Int × Int) × Arr))
    (k : List Nat × Int × Int × Int) (v : Arr) (s : List Nat) :
    s ∈ (updAssoc m k v).map (fun kv => kv.1.1) ↔
      s ∈ m.map (fun kv => kv.1.1) ∨ s = k.1 := by
  induction m with
  | nil => simp [updAssoc]
  | cons q rest ih =>
    obtain ⟨qk, qv⟩ := q
    by_cases hq : qk = k
    · have hstep : updAssoc ((qk, qv) :: rest) k v = (qk, v) :: rest := by
        simp [updAssoc, hq]
      rw [hstep]
      have hq1 : qk.1 = k.1 := by rw [hq]
      simp only [List.map_cons, List.mem_cons, hq1]
      tauto
    · have hstep : updAssoc ((qk, qv) :: rest) k v = (qk, qv) :: updAssoc rest k v := by
        simp [updAssoc, hq]
      rw [hstep]
      simp only [List.map_cons, List.mem_cons, ih]
      tauto

theorem cbbuBuild_fold_keys (rs : List UBRec) :
    ∀ (acc : List ((List Nat × Int × Int × Int) × Arr)) (s : List Nat),
    (s ∈ (rs.foldl (fun a r => updAssoc a (stripLabel r.text, r.nval, r.kper, r.kstp)
        (Arr.view r.data)) acc).map (fun kv => kv.1.1) ↔
      s ∈ acc.map (fun kv => kv.1.1) ∨ s ∈ rs.map (fun r => stripLabel r.text)) := by
  induction rs with
  | nil =>
    intro acc s
    simp only [List.foldl_nil, List.map_nil, List.not_mem_nil, or_false]
  | cons r rest ih =>
    intro acc s
    simp only [List.foldl_cons, List.map_cons, List.mem_cons]
    rw [ih, updAssoc_label_mem]
    tauto

theorem filter_label_mem (rs : List BRec) (allow : List (List Nat)) (s : List Nat) :
    s ∈ (rs.filter (fun r => decide (stripLabel r.text ∈ allow))).map
        (fun r => stripLabel r.text) ↔
      s ∈ rs.map (fun r => stripLabel r.text) ∧ s ∈ allow := by
  simp only [List.mem_map, List.mem_filter, decide_eq_true_eq]
  constructor
  · rintro ⟨r, ⟨hr, hal⟩, hs⟩
    exact ⟨⟨r, hr, hs⟩, hs ▸ hal⟩
  · rintro ⟨⟨r, hr, hs⟩, hal⟩
    exact ⟨r, ⟨hr, hs ▸ hal⟩, hs⟩

theorem filter_label_mem_ub (rs : List UBRec) (allow : List (List Nat)) (s : List Nat) :
    s ∈ (rs.filter (fun r => decide (stripLabel r.text ∈ allow))).map
        (fun r => stripLabel r.text) ↔
      s ∈ rs.map (fun r => stripLabel r.text) ∧ s ∈ allow := by
  simp only [List.mem_map, List.mem_filter, decide_eq_true_eq]
  constructor
  · rintro ⟨r, ⟨hr, hal⟩, hs⟩
    exact ⟨⟨r, hr, hs⟩, hs ▸ hal⟩
  · rintro ⟨⟨r, hr, hs⟩, hal⟩
    exact ⟨r, ⟨hr, hs ▸ hal⟩, hs⟩

theorem parse_cbb_loop_items_empty (f : List Nat) (nlay nrow ncol : Nat) :
    ∀ (fuel off : Nat) (cbb : List (List Nat × List ((Int × Int) × Arr))),
    parse_cbb_loop f nlay nrow ncol (some []) fuel off cbb =
      parse_cbb_loop f nlay nrow ncol none fuel off cbb := by
  intro fuel
  induction fuel with
  | zero =>
    intro off cbb
    rfl
  | succ n ih =>
    intro off cbb
    simp only [parse_cbb_loop, itemsTruthy, itemsHas, List.isEmpty_nil, Bool.not_true,
      Bool.false_and, Bool.not_false, if_true, if_false, Bool.false_eq_true, ih]

theorem parse_cbbu_loop_items_empty (f : List Nat) :
    ∀ (fuel off : Nat) (bud : List ((List Nat × Int × Int × Int) × Arr)),
    parse_cbbu_loop f (some []) fuel off bud = parse_cbbu_loop f none fuel off bud := by
  intro fuel
  induction fuel with
  | zero =>
    intro off bud
    rfl
  | succ n ih =>
    intro off bud
    simp only [parse_cbbu_loop, itemsTruthy, itemsHas, List.isEmpty_nil, Bool.not_true,
      Bool.false_and, Bool.not_false, if_true, if_false, Bool.false_eq_true, ih]

theorem parse_hdsu_loop_init (f : List Nat) :
    ∀ (fuel off : Nat) (hv0 : List Nat) (acc : List ((Int × Int) × Arr)),
    parse_hdsu_loop f fuel off (some hv0) acc = parse_hdsu_loopI f fuel off hv0 acc := by
  intro fuel
  induction fuel with
  | zero =>
    intro off hv0 acc
    rfl
  | succ n ih =>
    intro off hv0 acc
    simp only [parse_hdsu_loop, parse_hdsu_loopI]
    by_cases h1 : off < f.length
    case neg => simp only [if_neg h1]
    simp only [if_pos h1]
    by_cases h2 : off + 44 ≤ f.length
    case neg => simp only [if_neg h2]
    simp only [if_pos h2]
    by_cases h3 : getI4 f (off + 36) - getI4 f (off + 32) + 1 < 0
    case pos => simp only [if_pos h3]
    simp only [if_neg h3]
    by_cases h4 : off + 44 + 4 * (getI4 f (off + 36) - getI4 f (off + 32) + 1).toNat ≤ f.length
    case neg => simp only [if_neg h4]
    simp only [if_pos h4]
    by_cases h5 : getI4 f (off + 40) = 1
    · simp only [if_pos h5, List.nil_append]
      exact ih _ _ _
    · simp only [if_neg h5]
      exact ih _ _ _

theorem parse_hdsu_loop_first_fail (f : List Nat) (fuel : Nat)
    (acc : List ((Int × Int) × Arr)) (hne : f ≠ []) (hilay : getI4 f 40 ≠ 1) :
    parse_hdsu_loop f (fuel + 1) 0 none acc = none := by
  have h1 : 0 < f.length := List.length_pos.mpr hne
  simp only [parse_hdsu_loop, if_pos h1, Nat.zero_add]
  by_cases h2 : 44 ≤ f.length
  case neg => simp only [if_neg h2]
  simp only [if_pos h2]
  by_cases h3 : getI4 f 36 - getI4 f 32 + 1 < 0
  case pos => simp only [if_pos h3]
  simp only [if_neg h3]
  by_cases h4 : 44 + 4 * (getI4 f 36 - getI4 f 32 + 1).toNat ≤ f.length
  case neg => simp only [if_neg h4]
  simp only [if_pos h4, if_neg hilay]

theorem parse_hds_loop_sizes (f : List Nat) (nlay nrow ncol : Nat) :
    ∀ (fuel off : Nat) (hds : List ((Int × Int) × Arr)) (ts : List Nat)
      (res : List ((Int × Int) × Arr) × List Nat),
    parse_hds_loop f nlay nrow ncol fuel off hds ts = some res → off ≤ f.length →
    ∃ sizes : List Nat, off + sizes.sum = f.length ∧
      ∀ s ∈ sizes, s = nlay * hdsRecBytes nrow ncol := by
  intro fuel
  induction fuel with
  | zero =>
    intro off hds ts res hsucc
    exact absurd hsucc (by simp [parse_hds_loop])
  | succ n ih =>
    intro off hds ts res hsucc hle
    by_cases h1 : off < f.length
    · simp only [parse_hds_loop, if_pos h1] at hsucc
      by_cases h2 : off + nlay * hdsRecBytes nrow ncol ≤ f.length
      · rw [if_pos h2] at hsucc
        obtain ⟨sizes, hsum, hall⟩ := ih _ _ _ _ hsucc h2
        refine ⟨nlay * hdsRecBytes nrow ncol :: sizes, ?_, ?_⟩
        · simp only [List.sum_cons]
          omega
        · intro s hs
          rcases List.mem_cons.mp hs with he | he
          · exact he
          · exact hall s he
      · rw [if_neg h2] at hsucc
        exact absurd hsucc (by simp)
    · refine ⟨[], ?_, ?_⟩
      · simp only [List.sum_nil]
        omega
      · intro s hs
        exact absurd hs (List.not_mem_nil s)

theorem parse_cbb_loop_sizes (f : List Nat) (nlay nrow ncol : Nat)
    (items : Option (List (List Nat))) :
    ∀ (fuel off : Nat) (cbb res : List (List Nat × List ((Int × Int) × Arr))),
    parse_cbb_loop f nlay nrow ncol items fuel off cbb = some res → off ≤ f.length →
    ∃ sizes : List Nat, off + sizes.sum = f.length ∧
      ∀ s ∈ sizes, s = cbbRecBytes nlay nrow ncol := by
  intro fuel
  induction fuel with
  | zero =>
    intro off cbb res hsucc
    exact absurd hsucc (by simp [parse_cbb_loop])
  | succ n ih =>
    intro off cbb res hsucc hle
    by_cases h1 : off < f.length
    · simp only [parse_cbb_loop, if_pos h1] at hsucc
      by_cases h2 : off + cbbRecBytes nlay nrow ncol ≤ f.length
      · rw [if_pos h2] at hsucc
        obtain ⟨sizes, hsum, hall⟩ := ih _ _ _ hsucc h2
        refine ⟨cbbRecBytes nlay nrow ncol :: sizes, ?_, ?_⟩
        · simp only [List.sum_cons]
          omega
        · intro s hs
          rcases List.mem_cons.mp hs with he | he
          · exact he
          · exact hall s he
      · rw [if_neg h2] at hsucc
        exact absurd hsucc (by simp)
    · refine ⟨[], ?_, ?_⟩
      · simp only [List.sum_nil]
        omega
      · intro s hs
        exact absurd hs (List.not_mem_nil s)

theorem parse_hdsu_loop_sizes (f : List Nat) :
    ∀ (fuel off : Nat) (h : Option (List Nat)) (acc res : List ((Int × Int) × Arr)),
    parse_hdsu_loop f fuel off h acc = some res → off ≤ f.length →
    ∃ sizes : List Nat, hdsuTiles f off sizes ∧ off + sizes.sum = f.length := by
  intro fuel
  induction fuel with
  | zero =>
    intro off h acc res hsucc
    exact absurd hsucc (by simp [parse_hdsu_loop])
  | succ n ih =>
    intro off h acc res hsucc hle
    by_cases h1 : off < f.length
    · simp only [parse_hdsu_loop, if_pos h1] at hsucc
      by_cases h2 : off + 44 ≤ f.length
      case neg =>
        rw [if_neg h2] at hsucc
        exact absurd hsucc (by simp)
      rw [if_pos h2] at hsucc
      by_cases h3 : getI4 f (off + 36) - getI4 f (off + 32) + 1 < 0
      case pos =>
        rw [if_pos h3] at hsucc
        exact absurd hsucc (by simp)
      rw [if_neg h3] at hsucc
      by_cases h4 : off + 44 + 4 * (getI4 f (off + 36) - getI4 f (off + 32) + 1).toNat ≤
          f.length
      case neg =>
        rw [if_neg h4] at hsucc
        exact absurd hsucc (by simp)
      rw [if_pos h4] at hsucc
      cases hm : (if getI4 f (off + 40) = 1 then some ([] : List Nat) else h) with
      | none =>
        rw [hm] at hsucc
        exact absurd hsucc (by simp)
      | some hv =>
        rw [hm] at hsucc
        obtain ⟨sizes, htiles, hsum⟩ := ih _ _ _ _ hsucc h4
        refine ⟨(44 + 4 * (getI4 f (off + 36) - getI4 f (off + 32) + 1).toNat) :: sizes,
          ⟨rfl, ?_⟩, ?_⟩
        · have : off + (44 + 4 * (getI4 f (off + 36) - getI4 f (off + 32) + 1).toNat) =
              off + 44 + 4 * (getI4 f (off + 36) - getI4 f (off + 32) + 1).toNat := by
            omega
          rw [this]
          exact htiles
        · simp only [List.sum_cons]
          omega
    · refine ⟨[], ?_, ?_⟩
      · show off = f.length
        omega
      · simp only [List.sum_nil]
        omega

theorem parse_cbbu_loop_sizes (f : List Nat) (items : Option (List (List Nat))) :
    ∀ (fuel off : Nat) (bud res : List ((List Nat × Int × Int × Int) × Arr)),
    parse_cbbu_loop f items fuel off bud = some res → off ≤ f.length →
    ∃ sizes : List Nat, cbbuTiles f off sizes ∧ off + sizes.sum = f.length := by
  intro fuel
  induction fuel with
  | zero =>
    intro off bud res hsucc
    exact absurd hsucc (by simp [parse_cbbu_loop])
  | succ n ih =>
    intro off bud res hsucc hle
    by_cases h1 : off < f.length
    · simp only [parse_cbbu_loop, if_pos h1] at hsucc
      by_cases h2 : off + 36 ≤ f.length
      case neg =>
        rw [if_neg h2] at hsucc
        exact absurd hsucc (by simp)
      rw [if_pos h2] at hsucc
      by_cases h3 : getI4 f (off + 24) < 0
      case pos =>
        rw [if_pos h3] at hsucc
        exact absurd hsucc (by simp)
      rw [if_neg h3] at hsucc
      by_cases h4 : off + 36 + 4 * (getI4 f (off + 24)).toNat ≤ f.length
      case neg =>
        rw [if_neg h4] at hsucc
        exact absurd hsucc (by simp)
      rw [if_pos h4] at hsucc
      obtain ⟨sizes, htiles, hsum⟩ := ih _ _ _ hsucc h4
      refine ⟨(36 + 4 * (getI4 f (off + 24)).toNat) :: sizes, ⟨rfl, ?_⟩, ?_⟩
      · have : off + (36 + 4 * (getI4 f (off + 24)).toNat) =
            off + 36 + 4 * (getI4 f (off + 24)).toNat := by
          omega
        rw [this]
        exact htiles
      · simp only [List.sum_cons]
        omega
    · refine ⟨[], ?_, ?_⟩
      · show off = f.length
        omega
      · simp only [List.sum_nil]
        omega

theorem getBytes_dropLast (f : List Nat) (off n : Nat) (h : off + n + 1 ≤ f.length) :
    getBytes f.dropLast off n = getBytes f off n := by
  unfold getBytes
  rw [List.dropLast_eq_take, List.drop_take, List.take_take]
  congr 1
  omega

theorem getWord_dropLast (f : List Nat) (off : Nat) (h : off + 5 ≤ f.length) :
    getWord f.dropLast off = getWord f off := by
  unfold getWord
  rw [getBytes_dropLast f off 4 (by omega)]

theorem getI4_dropLast (f : List Nat) (off : Nat) (h : off + 5 ≤ f.length) :
    getI4 f.dropLast off = getI4 f off := by
  unfold getI4
  rw [getWord_dropLast f off h]

theorem hdsStack_dropLast (f : List Nat) (off nlay nrow ncol : Nat)
    (h : off + nlay * hdsRecBytes nrow ncol + 1 ≤ f.length) :
    hdsStack f.dropLast off nlay nrow ncol = hdsStack f off nlay nrow ncol := by
  unfold hdsStack
  congr 1
  apply List.map_congr_left
  intro i hi
  have hi2 : i < nlay := List.mem_range.mp hi
  congr 1
  apply getBytes_dropLast
  have hstep : i * hdsRecBytes nrow ncol + hdsRecBytes nrow ncol ≤
      nlay * hdsRecBytes nrow ncol := by
    have : i + 1 ≤ nlay := hi2
    calc i * hdsRecBytes nrow ncol + hdsRecBytes nrow ncol
        = (i + 1) * hdsRecBytes nrow ncol := by ring
      _ ≤ nlay * hdsRecBytes nrow ncol := Nat.mul_le_mul_right _ this
  have : 44 + 4 * (nrow * ncol) = hdsRecBytes nrow ncol := rfl
  omega

theorem parse_hds_loop_dropLast (f : List Nat) (nlay nrow ncol : Nat) (hpos : 0 < nlay) :
    ∀ (fuel off : Nat) (hds : List ((Int × Int) × Arr)) (ts : List Nat)
      (res : List ((Int × Int) × Arr) × List Nat),
    parse_hds_loop f nlay nrow ncol fuel off hds ts = some res → off < f.length →
    ∀ fuel2, parse_hds_loop f.dropLast nlay nrow ncol fuel2 off hds ts = none := by
  intro fuel
  induction fuel with
  | zero =>
    intro off hds ts res hsucc
    exact absurd hsucc (by simp [parse_hds_loop])
  | succ n ih =>
    intro off hds ts res hsucc hlt fuel2
    simp only [parse_hds_loop, if_pos hlt] at hsucc
    by_cases h2 : off + nlay * hdsRecBytes nrow ncol ≤ f.length
    case neg =>
      rw [if_neg h2] at hsucc
      exact absurd hsucc (by simp)
    rw [if_pos h2] at hsucc
    have hrb : 44 ≤ nlay * hdsRecBytes nrow ncol := by
      have h44 : 44 ≤ hdsRecBytes nrow ncol := by
        simp [hdsRecBytes]
      calc (44 : Nat) ≤ hdsRecBytes nrow ncol := h44
        _ = 1 * hdsRecBytes nrow ncol := by ring
        _ ≤ nlay * hdsRecBytes nrow ncol := Nat.mul_le_mul_right _ hpos
    cases fuel2 with
    | zero => rfl
    | succ m =>
      have hlt2 : off < f.dropLast.length := by
        simp only [List.length_dropLast]
        omega
      simp only [parse_hds_loop, if_pos hlt2]
      by_cases hend : off + nlay * hdsRecBytes nrow ncol = f.length
      · have hno : ¬ (off + nlay * hdsRecBytes nrow ncol ≤ f.dropLast.length) := by
          simp only [List.length_dropLast]
          omega
        rw [if_neg hno]
      · have h2b : off + nlay * hdsRecBytes nrow ncol ≤ f.dropLast.length := by
          simp only [List.length_dropLast]
          omega
        rw [if_pos h2b]
        have hbound : off + nlay * hdsRecBytes nrow ncol + 1 ≤ f.length := by
          omega
        have e4 : getI4 f.dropLast (off + 4) = getI4 f (off + 4) :=
          getI4_dropLast f (off + 4) (by omega)
        have e0 : getI4 f.dropLast off = getI4 f off :=
          getI4_dropLast f off (by omega)
        have e12 : getWord f.dropLast (off + 12) = getWord f (off + 12) :=
          getWord_dropLast f (off + 12) (by omega)
        have est : hdsStack f.dropLast off nlay nrow ncol = hdsStack f off nlay nrow ncol :=
          hdsStack_dropLast f off nlay nrow ncol hbound
        rw [e4, e0, e12, est]
        exact ih _ _ _ _ hsucc (by omega) m

theorem parse_cbb_loop_dropLast (f : List Nat) (nlay nrow ncol : Nat)
    (items : Option (List (List Nat))) :
    ∀ (fuel off : Nat) (cbb res : List (List Nat × List ((Int × Int) × Arr))),
    parse_cbb_loop f nlay nrow ncol items fuel off cbb = some res → off < f.length →
    ∀ fuel2, parse_cbb_loop f.dropLast nlay nrow ncol items fuel2 off cbb = none := by
  intro fuel
  induction fuel with
  | zero =>
    intro off cbb res hsucc
    exact absurd hsucc (by simp [parse_cbb_loop])
  | succ n ih =>
    intro off cbb res hsucc hlt fuel2
    simp only [parse_cbb_loop, if_pos hlt] at hsucc
    by_cases h2 : off + cbbRecBytes nlay nrow ncol ≤ f.length
    case neg =>
      rw [if_neg h2] at hsucc
      exact absurd hsucc (by simp)
    rw [if_pos h2] at hsucc
    have hrb : 36 ≤ cbbRecBytes nlay nrow ncol := by
      simp [cbbRecBytes]
    cases fuel2 with
    | zero => rfl
    | succ m =>
      have hlt2 : off < f.dropLast.length := by
        simp only [List.length_dropLast]
        omega
      simp only [parse_cbb_loop, if_pos hlt2]
      by_cases hend : off + cbbRecBytes nlay nrow ncol = f.length
      · have hno : ¬ (off + cbbRecBytes nlay nrow ncol ≤ f.dropLast.length) := by
          simp only [List.length_dropLast]
          omega
        rw [if_neg hno]
      · have h2b : off + cbbRecBytes nlay nrow ncol ≤ f.dropLast.length := by
          simp only [List.length_dropLast]
          omega
        rw [if_pos h2b]
        have hcb : cbbRecBytes nlay nrow ncol = 36 + 4 * (nlay * nrow * ncol) := rfl
        have e4 : getI4 f.dropLast (off + 4) = getI4 f (off + 4) :=
          getI4_dropLast f (off + 4) (by omega)
        have e0 : getI4 f.dropLast off = getI4 f off :=
          getI4_dropLast f off (by omega)
        have e8 : getBytes f.dropLast (off + 8) 16 = getBytes f (off + 8) 16 :=
          getBytes_dropLast f (off + 8) 16 (by omega)
        have e36 : getBytes f.dropLast (off + 36) (4 * (nlay * nrow * ncol)) =
            getBytes f (off + 36) (4 * (nlay * nrow * ncol)) :=
          getBytes_dropLast f (off + 36) (4 * (nlay * nrow * ncol)) (by omega)
        rw [e4, e0, e8, e36]
        exact ih _ _ _ hsucc (by omega) m

theorem parse_hdsu_loop_dropLast (f : List Nat) :
    ∀ (fuel off : Nat) (h : Option (List Nat)) (acc res : List ((Int × Int) × Arr)),
    parse_hdsu_loop f fuel off h acc = some res → off < f.length →
    ∀ fuel2, parse_hdsu_loop f.dropLast fuel2 off h acc = none := by
  intro fuel
  induction fuel with
  | zero =>
    intro off h acc res hsucc
    exact absurd hsucc (by simp [parse_hdsu_loop])
  | succ n ih =>
    intro off h acc res hsucc hlt fuel2
    simp only [parse_hdsu_loop, if_pos hlt] at hsucc
    by_cases h2 : off + 44 ≤ f.length
    case neg =>
      rw [if_neg h2] at hsucc
      exact absurd hsucc (by simp)
    rw [if_pos h2] at hsucc
    cases fuel2 with
    | zero => rfl
    | succ m =>
      have hlt2 : off < f.dropLast.length := by
        simp only [List.length_dropLast]
        omega
      simp only [parse_hdsu_loop, if_pos hlt2]
      by_cases hmeta : off + 44 = f.length
      · have hno : ¬ (off + 44 ≤ f.dropLast.length) := by
          simp only [List.length_dropLast]
          omega
        rw [if_neg hno]
      · have h2b : off + 44 ≤ f.dropLast.length := by
          simp only [List.length_dropLast]
          omega
        rw [if_pos h2b]
        have e36 : getI4 f.dropLast (off + 36) = getI4 f (off + 36) :=
          getI4_dropLast f (off + 36) (by omega)
        have e32 : getI4 f.dropLast (off + 32) = getI4 f (off + 32) :=
          getI4_dropLast f (off + 32) (by omega)
        have e40 : getI4 f.dropLast (off + 40) = getI4 f (off + 40) :=
          getI4_dropLast f (off + 40) (by omega)
        have e4 : getI4 f.dropLast (off + 4) = getI4 f (off + 4) :=
          getI4_dropLast f (off + 4) (by omega)
        have e0 : getI4 f.dropLast off = getI4 f off :=
          getI4_dropLast f off (by omega)
        rw [e36, e32, e40, e4, e0]
        by_cases h3 : getI4 f (off + 36) - getI4 f (off + 32) + 1 < 0
        case pos =>
          rw [if_pos h3] at hsucc
          exact absurd hsucc (by simp)
        rw [if_neg h3] at hsucc
        rw [if_neg h3]
        by_cases h4 : off + 44 + 4 * (getI4 f (off + 36) - getI4 f (off + 32) + 1).toNat ≤
            f.length
        case neg =>
          rw [if_neg h4] at hsucc
          exact absurd hsucc (by simp)
        rw [if_pos h4] at hsucc
        by_cases hspan : off + 44 + 4 * (getI4 f (off + 36) - getI4 f (off + 32) + 1).toNat =
            f.length
        · have hno : ¬ (off + 44 + 4 * (getI4 f (off + 36) - getI4 f (off + 32) + 1).toNat ≤
              f.dropLast.length) := by
            simp only [List.length_dropLast]
            omega
          rw [if_neg hno]
        · have h4b : off + 44 + 4 * (getI4 f (off + 36) - getI4 f (off + 32) + 1).toNat ≤
              f.dropLast.length := by
            simp only [List.length_dropLast]
            omega
          rw [if_pos h4b]
          cases hm : (if getI4 f (off + 40) = 1 then some ([] : List Nat) else h) with
          | none => rfl
          | some hv =>
            rw [hm] at hsucc
            have e44 : getBytes f.dropLast (off + 44)
                (4 * (getI4 f (off + 36) - getI4 f (off + 32) + 1).toNat) =
                getBytes f (off + 44)
                (4 * (getI4 f (off + 36) - getI4 f (off + 32) + 1).toNat) :=
              getBytes_dropLast f (off + 44) _ (by omega)
            rw [e44]
            exact ih _ _ _ _ hsucc (by omega) m

theorem parse_cbbu_loop_dropLast (f : List Nat) (items : Option (List (List Nat))) :
    ∀ (fuel off : Nat) (bud res : List ((List Nat × Int × Int × Int) × Arr)),
    parse_cbbu_loop f items fuel off bud = some res → off < f.length →
    ∀ fuel2, parse_cbbu_loop f.dropLast items fuel2 off bud = none := by
  intro fuel
  induction fuel with
  | zero =>
    intro off bud res hsucc
    exact absurd hsucc (by simp [parse_cbbu_loop])
  | succ n ih =>
    intro off bud res hsucc hlt fuel2
    simp only [parse_cbbu_loop, if_pos hlt] at hsucc
    by_cases h2 : off + 36 ≤ f.length
    case neg =>
      rw [if_neg h2] at hsucc
      exact absurd hsucc (by simp)
    rw [if_pos h2] at hsucc
    cases fuel2 with
    | zero => rfl
    | succ m =>
      have hlt2 : off < f.dropLast.length := by
        simp only [List.length_dropLast]
        omega
      simp only [parse_cbbu_loop, if_pos hlt2]
      by_cases hmeta : off + 36 = f.length
      · have hno : ¬ (off + 36 ≤ f.dropLast.length) := by
          simp only [List.length_dropLast]
          omega
        rw [if_neg hno]
      · have h2b : off + 36 ≤ f.dropLast.length := by
          simp only [List.length_dropLast]
          omega
        rw [if_pos h2b]
        have e24 : getI4 f.dropLast (off + 24) = getI4 f (off + 24) :=
          getI4_dropLast f (off + 24) (by omega)
        have e4 : getI4 f.dropLast (off + 4) = getI4 f (off + 4) :=
          getI4_dropLast f (off + 4) (by omega)
        have e0 : getI4 f.dropLast off = getI4 f off :=
          getI4_dropLast f off (by omega)
        have e8 : getBytes f.dropLast (off + 8) 16 = getBytes f (off + 8) 16 :=
          getBytes_dropLast f (off + 8) 16 (by omega)
        rw [e24, e4, e0, e8]
        by_cases h3 : getI4 f (off + 24) < 0
        case pos =>
          rw [if_pos h3] at hsucc
          exact absurd hsucc (by simp)
        rw [if_neg h3] at hsucc
        rw [if_neg h3]
        by_cases h4 : off + 36 + 4 * (getI4 f (off + 24)).toNat ≤ f.length
        case neg =>
          rw [if_neg h4] at hsucc
          exact absurd hsucc (by simp)
        rw [if_pos h4] at hsucc
        by_cases hspan : off + 36 + 4 * (getI4 f (off + 24)).toNat = f.length
        · have hno : ¬ (off + 36 + 4 * (getI4 f (off + 24)).toNat ≤
              f.dropLast.length) := by
            simp only [List.length_dropLast]
            omega
          rw [if_neg hno]
        · have h4b : off + 36 + 4 * (getI4 f (off + 24)).toNat ≤ f.dropLast.length := by
            simp only [List.length_dropLast]
            omega
          rw [if_pos h4b]
          have e36 : getBytes f.dropLast (off + 36) (4 * (getI4 f (off + 24)).toNat) =
              getBytes f (off + 36) (4 * (getI4 f (off + 24)).toNat) :=
            getBytes_dropLast f (off + 36) _ (by omega)
          rw [e36]
          exact ih _ _ _ hsucc (by omega) m

theorem parse_hds_loop_owned (f : List Nat) (nlay nrow ncol : Nat) :
    ∀ (fuel off : Nat) (hds : List ((Int × Int) × Arr)) (ts : List Nat)
      (res : List ((Int × Int) × Arr) × List Nat),
    parse_hds_loop f nlay nrow ncol fuel off hds ts = some res →
    (∀ kv ∈ hds, kv.2.isOwned = true) →
    ∀ kv ∈ res.1, kv.2.isOwned = true := by
  intro fuel
  induction fuel with
  | zero =>
    intro off hds ts res hsucc
    exact absurd hsucc (by simp [parse_hds_loop])
  | succ n ih =>
    intro off hds ts res hsucc hinv
    by_cases h1 : off < f.length
    · simp only [parse_hds_loop, if_pos h1] at hsucc
      by_cases h2 : off + nlay * hdsRecBytes nrow ncol ≤ f.length
      · rw [if_pos h2] at hsucc
        refine ih _ _ _ _ hsucc ?_
        intro kv hkv
        rcases updAssoc_mem _ _ _ _ hkv with hin | hval
        · exact hinv kv hin
        · rw [hval]
          rfl
      · rw [if_neg h2] at hsucc
        exact absurd hsucc (by simp)
    · simp only [parse_hds_loop, if_neg h1] at hsucc
      injection hsucc with hres
      subst hres
      intro kv hkv
      exact hinv kv hkv

theorem cbbStore_owned_inv (m : List (List Nat × List ((Int × Int) × Arr)))
    (t : List Nat) (k : Int × Int) (v : Arr)
    (hm : ∀ q ∈ m, ∀ kv ∈ q.2, kv.2.isOwned = true) (hv : v.isOwned = true) :
    ∀ q ∈ cbbStore m t k v, ∀ kv ∈ q.2, kv.2.isOwned = true := by
  induction m with
  | nil =>
    intro q hq kv hkv
    simp only [cbbStore, List.mem_singleton] at hq
    subst hq
    simp only [List.mem_singleton] at hkv
    subst hkv
    exact hv
  | cons q0 rest ih =>
    obtain ⟨qt, qm⟩ := q0
    intro q hq kv hkv
    by_cases hqt : qt = t
    · have hstep : cbbStore ((qt, qm) :: rest) t k v = (qt, updAssoc qm k v) :: rest := by
        simp [cbbStore, hqt]
      rw [hstep] at hq
      rcases List.mem_cons.mp hq with he | he
      · rw [he] at hkv
        rcases updAssoc_mem _ _ _ _ hkv with hin | hval
        · exact hm (qt, qm) (by simp) kv hin
        · rw [hval]
          exact hv
      · exact hm q (List.mem_cons_of_mem _ he) kv hkv
    · have hstep : cbbStore ((qt, qm) :: rest) t k v =
          (qt, qm) :: cbbStore rest t k v := by
        simp [cbbStore, hqt]
      rw [hstep] at hq
      rcases List.mem_cons.mp hq with he | he
      · rw [he] at hkv
        exact hm (qt, qm) (by simp) kv hkv
      · exact ih (fun x hx => hm x (List.mem_cons_of_mem _ hx)) q he kv hkv

theorem parse_cbb_loop_owned (f : List Nat) (nlay nrow ncol : Nat)
    (items : Option (List (List Nat))) :
    ∀ (fuel off : Nat) (cbb res : List (List Nat × List ((Int × Int) × Arr))),
    parse_cbb_loop f nlay nrow ncol items fuel off cbb = some res →
    (∀ q ∈ cbb, ∀ kv ∈ q.2, kv.2.isOwned = true) →
    ∀ q ∈ res, ∀ kv ∈ q.2, kv.2.isOwned = true := by
  intro fuel
  induction fuel with
  | zero =>
    intro off cbb res hsucc
    exact absurd hsucc (by simp [parse_cbb_loop])
  | succ n ih =>
    intro off cbb res hsucc hinv
    by_cases h1 : off < f.length
    · simp only [parse_cbb_loop, if_pos h1] at hsucc
      by_cases h2 : off + cbbRecBytes nlay nrow ncol ≤ f.length
      · rw [if_pos h2] at hsucc
        refine ih _ _ _ hsucc ?_
        by_cases hbr : (itemsTruthy items &&
            itemsHas items (stripLabel (getBytes f (off + 8) 16))) = true
        · rw [if_pos hbr]
          exact cbbStore_owned_inv _ _ _ _ hinv rfl
        · rw [if_neg hbr]
          by_cases hnt : (!itemsTruthy items) = true
          · rw [if_pos hnt]
            exact cbbStore_owned_inv _ _ _ _ hinv rfl
          · rw [if_neg hnt]
            exact hinv
      · rw [if_neg h2] at hsucc
        exact absurd hsucc (by simp)
    · simp only [parse_cbb_loop, if_neg h1] at hsucc
      injection hsucc with hres
      subst hres
      exact hinv

theorem parse_hdsu_loop_owned (f : List Nat) :
    ∀ (fuel off : Nat) (h : Option (List Nat)) (acc res : List ((Int × Int) × Arr)),
    parse_hdsu_loop f fuel off h acc = some res →
    (∀ kv ∈ acc, kv.2.isOwned = true) →
    ∀ kv ∈ res, kv.2.isOwned = true := by
  intro fuel
  induction fuel with
  | zero =>
    intro off h acc res hsucc
    exact absurd hsucc (by simp [parse_hdsu_loop])
  | succ n ih =>
    intro off h acc res hsucc hinv
    by_cases h1 : off < f.length
    · simp only [parse_hdsu_loop, if_pos h1] at hsucc
      by_cases h2 : off + 44 ≤ f.length
      case neg =>
        rw [if_neg h2] at hsucc
        exact absurd hsucc (by simp)
      rw [if_pos h2] at hsucc
      by_cases h3 : getI4 f (off + 36) - getI4 f (off + 32) + 1 < 0
      case pos =>
        rw [if_pos h3] at hsucc
        exact absurd hsucc (by simp)
      rw [if_neg h3] at hsucc
      by_cases h4 : off + 44 + 4 * (getI4 f (off + 36) - getI4 f (off + 32) + 1).toNat ≤
          f.length
      case neg =>
        rw [if_neg h4] at hsucc
        exact absurd hsucc (by simp)
      rw [if_pos h4] at hsucc
      cases hm : (if getI4 f (off + 40) = 1 then some ([] : List Nat) else h) with
      | none =>
        rw [hm] at hsucc
        exact absurd hsucc (by simp)
      | some hv =>
        rw [hm] at hsucc
        refine ih _ _ _ _ hsucc ?_
        intro kv hkv
        rcases updAssoc_mem _ _ _ _ hkv with hin | hval
        · exact hinv kv hin
        · rw [hval]
          rfl
    · simp only [parse_hdsu_loop, if_neg h1] at hsucc
      injection hsucc with hres
      subst hres
      exact hinv

theorem parse_cbbu_loop_view (f : List Nat) (items : Option (List (List Nat))) :
    ∀ (fuel off : Nat) (bud res : List ((List Nat × Int × Int × Int) × Arr)),
    parse_cbbu_loop f items fuel off bud = some res →
    (∀ kv ∈ bud, kv.2.isOwned = false) →
    ∀ kv ∈ res, kv.2.isOwned = false := by
  intro fuel
  induction fuel with
  | zero =>
    intro off bud res hsucc
    exact absurd hsucc (by simp [parse_cbbu_loop])
  | succ n ih =>
    intro off bud res hsucc hinv
    by_cases h1 : off < f.length
    · simp only [parse_cbbu_loop, if_pos h1] at hsucc
      by_cases h2 : off + 36 ≤ f.length
      case neg =>
        rw [if_neg h2] at hsucc
        exact absurd hsucc (by simp)
      rw [if_pos h2] at hsucc
      by_cases h3 : getI4 f (off + 24) < 0
      case pos =>
        rw [if_pos h3] at hsucc
        exact absurd hsucc (by simp)
      rw [if_neg h3] at hsucc
      by_cases h4 : off + 36 + 4 * (getI4 f (off + 24)).toNat ≤ f.length
      case neg =>
        rw [if_neg h4] at hsucc
        exact absurd hsucc (by simp)
      rw [if_pos h4] at hsucc
      refine ih _ _ _ hsucc ?_
      by_cases hbr : (itemsTruthy items &&
          itemsHas items (stripLabel (getBytes f (off + 8) 16))) = true
      · rw [if_pos hbr]
        intro kv hkv
        rcases updAssoc_mem _ _ _ _ hkv with hin | hval
        · exact hinv kv hin
        · rw [hval]
          rfl
      · rw [if_neg hbr]
        by_cases hnt : (!itemsTruthy items) = true
        · rw [if_pos hnt]
          intro kv hkv
          rcases updAssoc_mem _ _ _ _ hkv with hin | hval
          · exact hinv kv hin
          · rw [hval]
            rfl
        · rw [if_neg hnt]
          exact hinv
    · simp only [parse_cbbu_loop, if_neg h1] at hsucc
      injection hsucc with hres
      subst hres
      exact hinv

theorem hGroupData_length (g : List HRec) (nrow ncol : Nat)
    (hwf : ∀ r ∈ g, r.wf nrow ncol) :
    (hGroupData g).length = g.length * (nrow * ncol) := by
  induction g with
  | nil => simp [hGroupData]
  | cons r rest ih =>
    have hr : r.data.length = nrow * ncol := (hwf r (by simp)).2.2.2.2.1
    have h2 := ih (fun x hx => hwf x (by simp [hx]))
    simp only [hGroupData, List.map_cons, List.flatten_cons, List.length_append,
      List.length_cons] at h2 ⊢
    rw [hr, h2]
    ring

/-- C1 (corrected): for every file a decoder decodes successfully, every
array stored by `parse_hds`, `parse_cbb` and `parse_hdsu` is an owned,
independent copy of the decoded payload (a `.copy()` or `np.concatenate`
result).  `parse_cbbu`, however, stores the memmap record's `data` field
itself without `.copy()`, so every value of its returned mapping is a view
into the source file's memory mapping, not an independent copy. -/
theorem claim_c1 (fs : String → Option (List Nat)) (path : Option String)
    (nlay nrow ncol : Nat) (items : Option (List (List Nat))) :
    (∀ res, parse_hds fs path nlay nrow ncol = some res →
      ∀ kv ∈ res.1, kv.2.isOwned = true) ∧
    (∀ res, parse_cbb fs path nlay nrow ncol items = some res →
      ∀ q ∈ res, ∀ kv ∈ q.2, kv.2.isOwned = true) ∧
    (∀ res, parse_hdsu fs path = some res → ∀ kv ∈ res, kv.2.isOwned = true) ∧
    (∀ res, parse_cbbu fs path items = some res → ∀ kv ∈ res, kv.2.isOwned = false) := by
  refine ⟨?_, ?_, ?_, ?_⟩
  · intro res hsucc
    cases path with
    | none =>
      simp only [parse_hds] at hsucc
      injection hsucc with hres
      subst hres
      intro kv hkv
      exact absurd hkv (List.not_mem_nil kv)
    | some p =>
      simp only [parse_hds] at hsucc
      by_cases hz : nlay = 0 ∨ nrow = 0 ∨ ncol = 0
      · rw [if_pos hz] at hsucc
        injection hsucc with hres
        subst hres
        intro kv hkv
        exact absurd hkv (List.not_mem_nil kv)
      · rw [if_neg hz] at hsucc
        cases hf : fs p with
        | none =>
          rw [hf] at hsucc
          exact absurd hsucc (by simp)
        | some f =>
          rw [hf] at hsucc
          exact parse_hds_loop_owned f nlay nrow ncol _ _ _ _ _ hsucc
            (fun kv hkv => absurd hkv (List.not_mem_nil kv))
  · intro res hsucc
    cases path with
    | none =>
      simp only [parse_cbb] at hsucc
      exact absurd hsucc (by simp)
    | some p =>
      simp only [parse_cbb] at hsucc
      cases hf : fs p with
      | none =>
        rw [hf] at hsucc
        exact absurd hsucc (by simp)
      | some f =>
        rw [hf] at hsucc
        exact parse_cbb_loop_owned f nlay nrow ncol items _ _ _ _ hsucc
          (fun q hq => absurd hq (List.not_mem_nil q))
  · intro res hsucc
    cases path with
    | none =>
      simp only [parse_hdsu] at hsucc
      exact absurd hsucc (by simp)
    | some p =>
      simp only [parse_hdsu] at hsucc
      cases hf : fs p with
      | none =>
        rw [hf] at hsucc
        exact absurd hsucc (by simp)
      | some f =>
        rw [hf] at hsucc
        exact parse_hdsu_loop_owned f _ _ _ _ _ hsucc
          (fun kv hkv => absurd hkv (List.not_mem_nil kv))
  · intro res hsucc
    cases path with
    | none =>
      simp only [parse_cbbu] at hsucc
      exact absurd hsucc (by simp)
    | some p =>
      simp only [parse_cbbu] at hsucc
      cases hf : fs p with
      | none =>
        rw [hf] at hsucc
        exact absurd hsucc (by simp)
      | some f =>
        rw [hf] at hsucc
        exact parse_cbbu_loop_view f items _ _ _ _ hsucc
          (fun kv hkv => absurd hkv (List.not_mem_nil kv))

/-- C1 counterexample: a one-record unstructured budget file decodes to a
mapping whose stored value is a view into the memory mapping (`isOwned`
is `false`), refuting the claim that every value of the mapping returned
by `parse_cbbu` is an independent copy. -/
theorem claim_c1_counterexample :
    parse_cbbu (fun _ => some (encUBFile
        [⟨1, 1, [65, 32, 32, 32, 32, 32, 32, 32, 32, 32, 32, 32, 32, 32, 32, 32],
          1, 1, 0, [7]⟩])) (some "biscayne.cbc") none =
      some [(([65], 1, 1, 1), Arr.view [7])] ∧
    Arr.isOwned (Arr.view [7]) = false := by
  constructor
  · decide
  · rfl

/-- C1 witness: the amended theorem applied to a concrete two-layer
structured head file; the stored stacked array is an owned copy. -/
theorem claim_c1_witness :
    Arr.isOwned (Arr.owned [55, 56]) = true :=
  (claim_c1 (fun _ => some (encHFile
      [[⟨1, 1, 0, 99, [32, 32, 32, 32, 32, 32, 32, 32, 32, 32, 32, 32, 32, 32, 32, 32],
          1, 1, 1, [55]⟩,
        ⟨1, 1, 0, 99, [32, 32, 32, 32, 32, 32, 32, 32, 32, 32, 32, 32, 32, 32, 32, 32],
          1, 1, 2, [56]⟩]]))
    (some "abr.hds") 2 1 1 none).1
    ([((1, 1), Arr.owned [55, 56])], [99]) (by decide)
    ((1, 1), Arr.owned [55, 56]) (by decide)

/-- C2 (amended): `parse_hds` short-circuits to an empty mapping and empty
time list when the path is Python `None` (for arbitrary dimensions) or
when any grid dimension is zero, for every filesystem (so no file access
is attempted).  The original claim's coverage of empty-string paths and
of `parse_cbb` is refuted by the counterexample. -/
theorem claim_c2 (fs : String → Option (List Nat)) (p : String) (nlay nrow ncol : Nat) :
    parse_hds fs none nlay nrow ncol = some ([], []) ∧
    (nlay = 0 ∨ nrow = 0 ∨ ncol = 0 →
      parse_hds fs (some p) nlay nrow ncol = some ([], [])) := by
  constructor
  · rfl
  · intro hz
    simp only [parse_hds, if_pos hz]

/-- C2 counterexample: `parse_cbb` has no argument short-circuit — with a
zero layer count and a nonexistent file it raises (result `none`) instead
of returning an empty mapping; and `parse_hds` only checks `is None`, so
an empty-string path with nonzero dimensions also attempts file access
and fails rather than returning an empty result. -/
theorem claim_c2_counterexample :
    parse_cbb (fun _ => none) (some "missing.cbb") 0 1 1 none = none ∧
    parse_hds (fun _ => none) (some "") 1 1 1 = none := by
  constructor
  · rfl
  · decide

/-- C2 witness: the `None`-path short-circuit with nonzero dimensions
(7, 368, 410) and the zero-dimension short-circuit, both over a
filesystem with no files. -/
theorem claim_c2_witness :
    parse_hds (fun _ => none) none 7 368 410 = some ([], []) ∧
    parse_hds (fun _ => none) (some "missing.hds") 0 1 1 = some ([], []) :=
  ⟨(claim_c2 (fun _ => none) "missing.hds" 7 368 410).1,
   (claim_c2 (fun _ => none) "missing.hds" 0 1 1).2 (Or.inl rfl)⟩

/-- C3: for every well-formed unstructured head file — a concatenation of
time-step groups whose records appear in increasing layer order starting
at `ilay = 1`, each payload of length `nndlay - nstrt + 1`, with distinct
time-step keys — `parse_hdsu` returns the mapping that sends each
group's `(kper, kstp)` key to the concatenation, in layer order, of that
group's per-layer payload segments. -/
theorem claim_c3 (fs : String → Option (List Nat)) (p : String)
    (gs : List (List URec)) (hwf : ∀ g ∈ gs, uGroupWf g)
    (hkeys : (gs.map uKey).Nodup) (hfs : fs p = some (encUFile gs)) :
    parse_hdsu fs (some p) =
      some (gs.map (fun g => (uKey g, Arr.owned (uGroupData g)))) := by
  simp only [parse_hdsu, hfs]
  have hwf2 : ∀ g ∈ gs, ∀ r ∈ g, URec.wf r := fun g hg r hr => ((hwf g hg).2.1) r hr
  have hle := totURecs_le gs hwf2
  have hfuel : (encUFile gs).length + 1 =
      ((encUFile gs).length - totURecs gs) + 1 + totURecs gs := by
    omega
  have hloop := parse_hdsu_loop_groups gs hwf ([])
    ((encUFile gs).length - totURecs gs) none []
  simp only [List.nil_append, List.length_nil] at hloop
  rw [hfuel, hloop]
  congr 1
  have hmap : gs.foldl (fun a g => updAssoc a (uKey g) (Arr.owned (uGroupData g)))
      ([] : List ((Int × Int) × Arr)) =
      (gs.map (fun g => (uKey g, Arr.owned (uGroupData g)))).foldl
        (fun a q => updAssoc a q.1 q.2) [] := by
    rw [List.foldl_map]
  rw [hmap, foldl_updAssoc_fresh _ []
    (fun q _ p hp => absurd hp (List.not_mem_nil p)) ?_]
  · simp
  · simpa [List.map_map, Function.comp] using hkeys

/-- C3 witness: a single time step with three layers of segment lengths
5, 7 and 3 decodes to one stored array of length 15 equal to the layer
segments concatenated in layer order. -/
theorem claim_c3_witness :
    parse_hdsu (fun _ => some (encUFile
      [[⟨1, 2, 0, 0, [32, 32, 32, 32, 32, 32, 32, 32, 32, 32, 32, 32, 32, 32, 32, 32],
          1, 5, 1, [10, 11, 12, 13, 14]⟩,
        ⟨1, 2, 0, 0, [32, 32, 32, 32, 32, 32, 32, 32, 32, 32, 32, 32, 32, 32, 32, 32],
          6, 12, 2, [20, 21, 22, 23, 24, 25, 26]⟩,
        ⟨1, 2, 0, 0, [32, 32, 32, 32, 32, 32, 32, 32, 32, 32, 32, 32, 32, 32, 32, 32],
          13, 15, 3, [30, 31, 32]⟩]])) (some "biscayne.hds") =
      some [((2, 1),
        Arr.owned [10, 11, 12, 13, 14, 20, 21, 22, 23, 24, 25, 26, 30, 31, 32])] ∧
    [10, 11, 12, 13, 14, 20, 21, 22, 23, 24, 25, 26, 30, 31, 32].length = 15 := by
  constructor
  · have h := claim_c3 (fun _ => some (encUFile
      [[⟨1, 2, 0, 0, [32, 32, 32, 32, 32, 32, 32, 32, 32, 32, 32, 32, 32, 32, 32, 32],
          1, 5, 1, [10, 11, 12, 13, 14]⟩,
        ⟨1, 2, 0, 0, [32, 32, 32, 32, 32, 32, 32, 32, 32, 32, 32, 32, 32, 32, 32, 32],
          6, 12, 2, [20, 21, 22, 23, 24, 25, 26]⟩,
        ⟨1, 2, 0, 0, [32, 32, 32, 32, 32, 32, 32, 32, 32, 32, 32, 32, 32, 32, 32, 32],
          13, 15, 3, [30, 31, 32]⟩]])) "biscayne.hds"
      [[⟨1, 2, 0, 0, [32, 32, 32, 32, 32, 32, 32, 32, 32, 32, 32, 32, 32, 32, 32, 32],
          1, 5, 1, [10, 11, 12, 13, 14]⟩,
        ⟨1, 2, 0, 0, [32, 32, 32, 32, 32, 32, 32, 32, 32, 32, 32, 32, 32, 32, 32, 32],
          6, 12, 2, [20, 21, 22, 23, 24, 25, 26]⟩,
        ⟨1, 2, 0, 0, [32, 32, 32, 32, 32, 32, 32, 32, 32, 32, 32, 32, 32, 32, 32, 32],
          13, 15, 3, [30, 31, 32]⟩]]
      (by simp only [uGroupWf, URec.wf, uKey, i4Range]; decide) (by decide) rfl
    exact h.trans (by decide)
  · rfl

/-- C7: for every well-formed structured head file with grid dimensions
`(nlay, nrow, ncol)` — a concatenation of time-step groups of `nlay`
consecutive per-layer records with distinct keys — `parse_hds` returns
the mapping sending each group's first-record `(kper, kstp)` key to the
stacked layer data (whose length is `nlay * nrow * ncol`, i.e. shape
`(nlay, nrow, ncol)`), together with the cumulative-time sequence listing,
in first-occurrence order, only the first layer's `totim` of each group. -/
theorem claim_c7 (fs : String → Option (List Nat)) (p : String)
    (nlay nrow ncol : Nat) (hl : 0 < nlay)
    (gs : List (List HRec))
    (hwf : ∀ g ∈ gs, g.length = nlay ∧ ∀ r ∈ g, r.wf nrow ncol)
    (hkeys : (gs.map hKey).Nodup) (hnz : ¬ (nlay = 0 ∨ nrow = 0 ∨ ncol = 0))
    (hfs : fs p = some (encHFile gs)) :
    parse_hds fs (some p) nlay nrow ncol =
      some (gs.map (fun g => (hKey g, Arr.owned (hGroupData g))), gs.map hTotim) ∧
    ∀ g ∈ gs, (hGroupData g).length = nlay * (nrow * ncol) := by
  constructor
  · simp only [parse_hds, if_neg hnz, hfs]
    have hle := hFile_groups_le gs nlay nrow ncol hwf hl
    have hfuel : (encHFile gs).length + 1 =
        ((encHFile gs).length - gs.length) + 1 + gs.length := by
      omega
    have hloop := parse_hds_loop_groups gs nlay nrow ncol hl hwf ([])
      ((encHFile gs).length - gs.length) [] []
    simp only [List.nil_append, List.length_nil] at hloop
    rw [hfuel, hloop]
    have hmap : gs.foldl (fun a g => updAssoc a (hKey g) (Arr.owned (hGroupData g)))
        ([] : List ((Int × Int) × Arr)) =
        (gs.map (fun g => (hKey g, Arr.owned (hGroupData g)))).foldl
          (fun a q => updAssoc a q.1 q.2) [] := by
      rw [List.foldl_map]
    rw [hmap, foldl_updAssoc_fresh _ []
      (fun q _ pr hp => absurd hp (List.not_mem_nil pr)) ?_]
    · simp
    · simpa [List.map_map, Function.comp] using hkeys
  · intro g hg
    rw [hGroupData_length g nrow ncol (hwf g hg).2, (hwf g hg).1]

/-- C7 witness: a concrete structured head file with two groups of two
layers on a 1x1 grid; the mapping stacks the layers and the time list
keeps only each group's first `totim`. -/
theorem claim_c7_witness :
    parse_hds (fun _ => some (encHFile
      [[⟨1, 1, 0, 99, [32, 32, 32, 32, 32, 32, 32, 32, 32, 32, 32, 32, 32, 32, 32, 32],
          1, 1, 1, [55]⟩,
        ⟨1, 1, 0, 98, [32, 32, 32, 32, 32, 32, 32, 32, 32, 32, 32, 32, 32, 32, 32, 32],
          1, 1, 2, [56]⟩],
       [⟨2, 1, 0, 77, [32, 32, 32, 32, 32, 32, 32, 32, 32, 32, 32, 32, 32, 32, 32, 32],
          1, 1, 1, [65]⟩,
        ⟨2, 1, 0, 76, [32, 32, 32, 32, 32, 32, 32, 32, 32, 32, 32, 32, 32, 32, 32, 32],
          1, 1, 2, [66]⟩]])) (some "abr.hds") 2 1 1 =
      some ([((1, 1), Arr.owned [55, 56]), ((1, 2), Arr.owned [65, 66])], [99, 77]) := by
  have h := claim_c7 (fun _ => some (encHFile
      [[⟨1, 1, 0, 99, [32, 32, 32, 32, 32, 32, 32, 32, 32, 32, 32, 32, 32, 32, 32, 32],
          1, 1, 1, [55]⟩,
        ⟨1, 1, 0, 98, [32, 32, 32, 32, 32, 32, 32, 32, 32, 32, 32, 32, 32, 32, 32, 32],
          1, 1, 2, [56]⟩],
       [⟨2, 1, 0, 77, [32, 32, 32, 32, 32, 32, 32, 32, 32, 32, 32, 32, 32, 32, 32, 32],
          1, 1, 1, [65]⟩,
        ⟨2, 1, 0, 76, [32, 32, 32, 32, 32, 32, 32, 32, 32, 32, 32, 32, 32, 32, 32, 32],
          1, 1, 2, [66]⟩]])) "abr.hds" 2 1 1 (by decide)
      [[⟨1, 1, 0, 99, [32, 32, 32, 32, 32, 32, 32, 32, 32, 32, 32, 32, 32, 32, 32, 32],
          1, 1, 1, [55]⟩,
        ⟨1, 1, 0, 98, [32, 32, 32, 32, 32, 32, 32, 32, 32, 32, 32, 32, 32, 32, 32, 32],
          1, 1, 2, [56]⟩],
       [⟨2, 1, 0, 77, [32, 32, 32, 32, 32, 32, 32, 32, 32, 32, 32, 32, 32, 32, 32, 32],
          1, 1, 1, [65]⟩,
        ⟨2, 1, 0, 76, [32, 32, 32, 32, 32, 32, 32, 32, 32, 32, 32, 32, 32, 32, 32, 32],
          1, 1, 2, [66]⟩]]
      (by simp only [HRec.wf, i4Range]; decide) (by decide) (by decide) rfl
  exact h.1.trans (by decide)

theorem cbb_fold_filter (rs : List BRec) (allow : List (List Nat)) (hne : allow ≠ []) :
    ∀ acc, rs.foldl (fun a r => if keepRec (some allow) (stripLabel r.text) then
      cbbStore a (stripLabel r.text) (r.kper, r.kstp) (Arr.owned r.data) else a) acc =
    (rs.filter (fun r => decide (stripLabel r.text ∈ allow))).foldl
      (fun a r => cbbStore a (stripLabel r.text) (r.kper, r.kstp) (Arr.owned r.data))
      acc := by
  induction rs with
  | nil =>
    intro acc
    rfl
  | cons r rest ih =>
    intro acc
    simp only [List.foldl_cons, List.filter_cons]
    by_cases hk : stripLabel r.text ∈ allow
    · have h1 : keepRec (some allow) (stripLabel r.text) = true := by
        rw [keepRec_some allow hne]
        exact decide_eq_true hk
      have h2 : decide (stripLabel r.text ∈ allow) = true := decide_eq_true hk
      rw [h1, h2, if_pos rfl, if_pos rfl]
      simp only [List.foldl_cons]
      exact ih _
    · have h1 : keepRec (some allow) (stripLabel r.text) = false := by
        rw [keepRec_some allow hne]
        exact decide_eq_false hk
      have h2 : decide (stripLabel r.text ∈ allow) = false := decide_eq_false hk
      rw [h1, h2, if_neg (by decide), if_neg (by decide)]
      exact ih _

theorem cbb_fold_none (rs : List BRec) :
    ∀ acc, rs.foldl (fun a r => if keepRec none (stripLabel r.text) then
      cbbStore a (stripLabel r.text) (r.kper, r.kstp) (Arr.owned r.data) else a) acc =
    rs.foldl (fun a r => cbbStore a (stripLabel r.text) (r.kper, r.kstp)
      (Arr.owned r.data)) acc := by
  induction rs with
  | nil =>
    intro acc
    rfl
  | cons r rest ih =>
    intro acc
    simp [List.foldl_cons, keepRec_none, ih]

theorem cbbu_fold_filter (rs : List UBRec) (allow : List (List Nat)) (hne : allow ≠ []) :
    ∀ acc, rs.foldl (fun a r => if keepRec (some allow) (stripLabel r.text) then
      updAssoc a (stripLabel r.text, r.nval, r.kper, r.kstp) (Arr.view r.data) else a)
      acc =
    (rs.filter (fun r => decide (stripLabel r.text ∈ allow))).foldl
      (fun a r => updAssoc a (stripLabel r.text, r.nval, r.kper, r.kstp)
        (Arr.view r.data)) acc := by
  induction rs with
  | nil =>
    intro acc
    rfl
  | cons r rest ih =>
    intro acc
    simp only [List.foldl_cons, List.filter_cons]
    by_cases hk : stripLabel r.text ∈ allow
    · have h1 : keepRec (some allow) (stripLabel r.text) = true := by
        rw [keepRec_some allow hne]
        exact decide_eq_true hk
      have h2 : decide (stripLabel r.text ∈ allow) = true := decide_eq_true hk
      rw [h1, h2, if_pos rfl, if_pos rfl]
      simp only [List.foldl_cons]
      exact ih _
    · have h1 : keepRec (some allow) (stripLabel r.text) = false := by
        rw [keepRec_some allow hne]
        exact decide_eq_false hk
      have h2 : decide (stripLabel r.text ∈ allow) = false := decide_eq_false hk
      rw [h1, h2, if_neg (by decide), if_neg (by decide)]
      exact ih _

theorem cbbu_fold_none (rs : List UBRec) :
    ∀ acc, rs.foldl (fun a r => if keepRec none (stripLabel r.text) then
      updAssoc a (stripLabel r.text, r.nval, r.kper, r.kstp) (Arr.view r.data) else a)
      acc =
    rs.foldl (fun a r => updAssoc a (stripLabel r.text, r.nval, r.kper, r.kstp)
      (Arr.view r.data)) acc := by
  induction rs with
  | nil =>
    intro acc
    rfl
  | cons r rest ih =>
    intro acc
    simp [List.foldl_cons, keepRec_none, ih]

/-- C4 (amended): for every budget file and every nonempty allow-list, the
decoders keep exactly the records whose stripped label is in the
allow-list (each matching record stored once, each non-matching record
skipped with the offset still advanced), so the result's label set is
exactly the intersection of the labels present and the allow-list; with
no allow-list all records are retained.  The original claim is refuted
for the empty allow-list, which Python treats as falsy, so it retains
everything instead of yielding the empty intersection. -/
theorem claim_c4 :
    (∀ (fs : String → Option (List Nat)) (p : String) (nlay nrow ncol : Nat)
       (allow : List (List Nat)) (rs : List BRec),
      allow ≠ [] → (∀ r ∈ rs, r.wf nlay nrow ncol) → fs p = some (encBFile rs) →
      (parse_cbb fs (some p) nlay nrow ncol (some allow) =
        some (cbbBuild (rs.filter (fun r => decide (stripLabel r.text ∈ allow))))) ∧
      (∀ s, s ∈ (cbbBuild (rs.filter (fun r =>
          decide (stripLabel r.text ∈ allow)))).map Prod.fst ↔
        s ∈ rs.map (fun r => stripLabel r.text) ∧ s ∈ allow) ∧
      parse_cbb fs (some p) nlay nrow ncol none = some (cbbBuild rs)) ∧
    (∀ (fs : String → Option (List Nat)) (p : String) (allow : List (List Nat))
       (rs : List UBRec),
      allow ≠ [] → (∀ r ∈ rs, r.wf) → fs p = some (encUBFile rs) →
      (parse_cbbu fs (some p) (some allow) =
        some (cbbuBuild (rs.filter (fun r => decide (stripLabel r.text ∈ allow))))) ∧
      (∀ s, s ∈ (cbbuBuild (rs.filter (fun r =>
          decide (stripLabel r.text ∈ allow)))).map (fun kv => kv.1.1) ↔
        s ∈ rs.map (fun r => stripLabel r.text) ∧ s ∈ allow) ∧
      parse_cbbu fs (some p) none = some (cbbuBuild rs)) := by
  constructor
  · intro fs p nlay nrow ncol allow rs hne hwf hfs
    have hle := encBFile_recs_le rs nlay nrow ncol hwf
    have hfuel : (encBFile rs).length + 1 =
        ((encBFile rs).length - rs.length) + 1 + rs.length := by
      omega
    have key : ∀ items, parse_cbb fs (some p) nlay nrow ncol items =
        some (rs.foldl (fun a r => if keepRec items (stripLabel r.text) then
          cbbStore a (stripLabel r.text) (r.kper, r.kstp) (Arr.owned r.data) else a)
          []) := by
      intro items
      simp only [parse_cbb, hfs]
      have hloop := parse_cbb_loop_recs rs nlay nrow ncol hwf items ([])
        ((encBFile rs).length - rs.length) []
      simp only [List.nil_append, List.length_nil] at hloop
      rw [hfuel, hloop]
    refine ⟨?_, ?_, ?_⟩
    · rw [key (some allow), cbb_fold_filter rs allow hne []]
      rfl
    · intro s
      unfold cbbBuild
      rw [cbbBuild_fold_keys _ [] s]
      simp only [List.map_nil, List.not_mem_nil, false_or]
      exact filter_label_mem rs allow s
    · rw [key none, cbb_fold_none rs []]
      rfl
  · intro fs p allow rs hne hwf hfs
    have hle := encUBFile_recs_le rs hwf
    have hfuel : (encUBFile rs).length + 1 =
        ((encUBFile rs).length - rs.length) + 1 + rs.length := by
      omega
    have key : ∀ items, parse_cbbu fs (some p) items =
        some (rs.foldl (fun a r => if keepRec items (stripLabel r.text) then
          updAssoc a (stripLabel r.text, r.nval, r.kper, r.kstp) (Arr.view r.data)
          else a) []) := by
      intro items
      simp only [parse_cbbu, hfs]
      have hloop := parse_cbbu_loop_recs rs hwf items ([])
        ((encUBFile rs).length - rs.length) []
      simp only [List.nil_append, List.length_nil] at hloop
      rw [hfuel, hloop]
    refine ⟨?_, ?_, ?_⟩
    · rw [key (some allow), cbbu_fold_filter rs allow hne []]
      rfl
    · intro s
      unfold cbbuBuild
      rw [cbbuBuild_fold_keys _ [] s]
      simp only [List.map_nil, List.not_mem_nil, false_or]
      exact filter_label_mem_ub rs allow s
    · rw [key none, cbbu_fold_none rs []]
      rfl

/-- C4 counterexample: the empty list is a strict subset of the labels
present, yet decoding with the empty allow-list retains every label
(Python `if items` treats `[]` as falsy), not the empty intersection. -/
theorem claim_c4_counterexample :
    parse_cbb (fun _ => some (encBFile
        [⟨1, 1, [65, 32, 32, 32, 32, 32, 32, 32, 32, 32, 32, 32, 32, 32, 32, 32],
          1, 1, 1, [100]⟩])) (some "abr.cbb") 1 1 1 (some []) =
      some [([65], [((1, 1), Arr.owned [100])])] ∧
    ([65] : List Nat) ∉ ([] : List (List Nat)) := by
  constructor
  · decide
  · decide

/-- C4 witness: a two-record structured budget file with labels `A` and
`B` filtered by the allow-list `[A]` keeps exactly the `A` record; the
companion unstructured budget file behaves the same. -/
theorem claim_c4_witness :
    parse_cbb (fun _ => some (encBFile
        [⟨1, 1, [65, 32, 32, 32, 32, 32, 32, 32, 32, 32, 32, 32, 32, 32, 32, 32],
          1, 1, 1, [100]⟩,
         ⟨1, 1, [66, 32, 32, 32, 32, 32, 32, 32, 32, 32, 32, 32, 32, 32, 32, 32],
          1, 1, 1, [200]⟩])) (some "abr.cbb") 1 1 1 (some [[65]]) =
      some [([65], [((1, 1), Arr.owned [100])])] ∧
    parse_cbbu (fun _ => some (encUBFile
        [⟨1, 1, [66, 32, 32, 32, 32, 32, 32, 32, 32, 32, 32, 32, 32, 32, 32, 32],
          1, 1, 0, [7]⟩])) (some "biscayne.cbc") (some [[65]]) = some [] := by
  constructor
  · have h := (claim_c4.1 (fun _ => some (encBFile
        [⟨1, 1, [65, 32, 32, 32, 32, 32, 32, 32, 32, 32, 32, 32, 32, 32, 32, 32],
          1, 1, 1, [100]⟩,
         ⟨1, 1, [66, 32, 32, 32, 32, 32, 32, 32, 32, 32, 32, 32, 32, 32, 32, 32],
          1, 1, 1, [200]⟩])) "abr.cbb" 1 1 1 [[65]]
        [⟨1, 1, [65, 32, 32, 32, 32, 32, 32, 32, 32, 32, 32, 32, 32, 32, 32, 32],
          1, 1, 1, [100]⟩,
         ⟨1, 1, [66, 32, 32, 32, 32, 32, 32, 32, 32, 32, 32, 32, 32, 32, 32, 32],
          1, 1, 1, [200]⟩]
        (by decide) (by simp only [BRec.wf, i4Range]; decide) rfl).1
    exact h.trans (by decide)
  · have h := (claim_c4.2 (fun _ => some (encUBFile
        [⟨1, 1, [66, 32, 32, 32, 32, 32, 32, 32, 32, 32, 32, 32, 32, 32, 32, 32],
          1, 1, 0, [7]⟩])) "biscayne.cbc" [[65]]
        [⟨1, 1, [66, 32, 32, 32, 32, 32, 32, 32, 32, 32, 32, 32, 32, 32, 32, 32],
          1, 1, 0, [7]⟩]
        (by decide) (by simp only [UBRec.wf, i4Range]; decide) rfl).1
    exact h.trans (by decide)

/-- C5: for every file a decoder scans to success, the record sizes
consumed tile the file exactly — structured head records advance by
`nlay * (44 + 4*nrow*ncol)` bytes, structured budget records by
`36 + 4*nlay*nrow*ncol` bytes, unstructured head records by
`44 + 4*(nndlay - nstrt + 1)` bytes and unstructured budget records by
`36 + 4*nval` bytes (sizes read from each record's own header, expressed
by the tiling predicates) — and the total equals the file size, the scan
terminating with the offset at end of file. -/
theorem claim_c5 :
    (∀ (fs : String → Option (List Nat)) (p : String) (f : List Nat)
       (nlay nrow ncol : Nat) (res : List ((Int × Int) × Arr) × List Nat),
      fs p = some f → 0 < nlay → 0 < nrow → 0 < ncol →
      parse_hds fs (some p) nlay nrow ncol = some res →
      ∃ sizes : List Nat, sizes.sum = f.length ∧
        ∀ s ∈ sizes, s = nlay * (44 + 4 * (nrow * ncol))) ∧
    (∀ (fs : String → Option (List Nat)) (p : String) (f : List Nat)
       (nlay nrow ncol : Nat) (items : Option (List (List Nat)))
       (res : List (List Nat × List ((Int × Int) × Arr))),
      fs p = some f → parse_cbb fs (some p) nlay nrow ncol items = some res →
      ∃ sizes : List Nat, sizes.sum = f.length ∧
        ∀ s ∈ sizes, s = 36 + 4 * (nlay * nrow * ncol)) ∧
    (∀ (fs : String → Option (List Nat)) (p : String) (f : List Nat)
       (res : List ((Int × Int) × Arr)),
      fs p = some f → parse_hdsu fs (some p) = some res →
      ∃ sizes : List Nat, hdsuTiles f 0 sizes ∧ sizes.sum = f.length) ∧
    (∀ (fs : String → Option (List Nat)) (p : String) (f : List Nat)
       (items : Option (List (List Nat)))
       (res : List ((List Nat × Int × Int × Int) × Arr)),
      fs p = some f → parse_cbbu fs (some p) items = some res →
      ∃ sizes : List Nat, cbbuTiles f 0 sizes ∧ sizes.sum = f.length) := by
  refine ⟨?_, ?_, ?_, ?_⟩
  · intro fs p f nlay nrow ncol res hf h1 h2 h3 hsucc
    have hnz : ¬ (nlay = 0 ∨ nrow = 0 ∨ ncol = 0) := by omega
    simp only [parse_hds, if_neg hnz, hf] at hsucc
    obtain ⟨sizes, hsum, hall⟩ :=
      parse_hds_loop_sizes f nlay nrow ncol (f.length + 1) 0 [] [] res hsucc (by omega)
    exact ⟨sizes, by omega, hall⟩
  · intro fs p f nlay nrow ncol items res hf hsucc
    simp only [parse_cbb, hf] at hsucc
    obtain ⟨sizes, hsum, hall⟩ :=
      parse_cbb_loop_sizes f nlay nrow ncol items (f.length + 1) 0 [] res hsucc (by omega)
    exact ⟨sizes, by omega, hall⟩
  · intro fs p f res hf hsucc
    simp only [parse_hdsu, hf] at hsucc
    obtain ⟨sizes, htiles, hsum⟩ :=
      parse_hdsu_loop_sizes f (f.length + 1) 0 none [] res hsucc (by omega)
    exact ⟨sizes, htiles, by omega⟩
  · intro fs p f items res hf hsucc
    simp only [parse_cbbu, hf] at hsucc
    obtain ⟨sizes, htiles, hsum⟩ :=
      parse_cbbu_loop_sizes f items (f.length + 1) 0 [] res hsucc (by omega)
    exact ⟨sizes, htiles, by omega⟩

/-- C5 witness: the byte-accounting conclusion instantiated on concrete
successfully decoded files for all four decoders. -/
theorem claim_c5_witness :
    (∃ sizes : List Nat, sizes.sum = (encHFile
      [[⟨1, 1, 0, 99, [32, 32, 32, 32, 32, 32, 32, 32, 32, 32, 32, 32, 32, 32, 32, 32],
          1, 1, 1, [55]⟩,
        ⟨1, 1, 0, 98, [32, 32, 32, 32, 32, 32, 32, 32, 32, 32, 32, 32, 32, 32, 32, 32],
          1, 1, 2, [56]⟩]]).length ∧
      ∀ s ∈ sizes, s = 2 * (44 + 4 * (1 * 1))) ∧
    (∃ sizes : List Nat, sizes.sum = (encBFile
      [⟨1, 1, [65, 32, 32, 32, 32, 32, 32, 32, 32, 32, 32, 32, 32, 32, 32, 32],
        1, 1, 1, [100]⟩]).length ∧
      ∀ s ∈ sizes, s = 36 + 4 * (1 * 1 * 1)) ∧
    (∃ sizes : List Nat, hdsuTiles (encUFile
      [[⟨1, 2, 0, 0, [32, 32, 32, 32, 32, 32, 32, 32, 32, 32, 32, 32, 32, 32, 32, 32],
          1, 1, 1, [10]⟩]]) 0 sizes ∧
      sizes.sum = (encUFile
      [[⟨1, 2, 0, 0, [32, 32, 32, 32, 32, 32, 32, 32, 32, 32, 32, 32, 32, 32, 32, 32],
          1, 1, 1, [10]⟩]]).length) ∧
    (∃ sizes : List Nat, cbbuTiles (encUBFile
      [⟨1, 1, [65, 32, 32, 32, 32, 32, 32, 32, 32, 32, 32, 32, 32, 32, 32, 32],
        1, 1, 0, [7]⟩]) 0 sizes ∧
      sizes.sum = (encUBFile
      [⟨1, 1, [65, 32, 32, 32, 32, 32, 32, 32, 32, 32, 32, 32, 32, 32, 32, 32],
        1, 1, 0, [7]⟩]).length) := by
  refine ⟨?_, ?_, ?_, ?_⟩
  · exact claim_c5.1 (fun _ => some (encHFile
      [[⟨1, 1, 0, 99, [32, 32, 32, 32, 32, 32, 32, 32, 32, 32, 32, 32, 32, 32, 32, 32],
          1, 1, 1, [55]⟩,
        ⟨1, 1, 0, 98, [32, 32, 32, 32, 32, 32, 32, 32, 32, 32, 32, 32, 32, 32, 32, 32],
          1, 1, 2, [56]⟩]])) "abr.hds" _ 2 1 1
      ([((1, 1), Arr.owned [55, 56])], [99]) rfl (by decide) (by decide) (by decide)
      (by decide)
  · exact claim_c5.2.1 (fun _ => some (encBFile
      [⟨1, 1, [65, 32, 32, 32, 32, 32, 32, 32, 32, 32, 32, 32, 32, 32, 32, 32],
        1, 1, 1, [100]⟩])) "abr.cbb" _ 1 1 1 none
      [([65], [((1, 1), Arr.owned [100])])] rfl (by decide)
  · exact claim_c5.2.2.1 (fun _ => some (encUFile
      [[⟨1, 2, 0, 0, [32, 32, 32, 32, 32, 32, 32, 32, 32, 32, 32, 32, 32, 32, 32, 32],
          1, 1, 1, [10]⟩]])) "biscayne.hds" _
      [((2, 1), Arr.owned [10])] rfl (by decide)
  · exact claim_c5.2.2.2 (fun _ => some (encUBFile
      [⟨1, 1, [65, 32, 32, 32, 32, 32, 32, 32, 32, 32, 32, 32, 32, 32, 32, 32],
        1, 1, 0, [7]⟩])) "biscayne.cbc" _ none
      [(([65], 1, 1, 1), Arr.view [7])] rfl (by decide)

/-- C6: truncating a successfully decoded, non-empty file by one byte
makes every decoder fail with a decode error (`none`): the final record's
header or payload now extends past end of file, no partial record is
emitted, and nothing is returned to the caller. -/
theorem claim_c6 :
    (∀ (fs1 fs2 : String → Option (List Nat)) (p : String) (f : List Nat)
       (nlay nrow ncol : Nat) (res : List ((Int × Int) × Arr) × List Nat),
      fs1 p = some f → f ≠ [] → 0 < nlay → 0 < nrow → 0 < ncol →
      parse_hds fs1 (some p) nlay nrow ncol = some res →
      fs2 p = some f.dropLast →
      parse_hds fs2 (some p) nlay nrow ncol = none) ∧
    (∀ (fs1 fs2 : String → Option (List Nat)) (p : String) (f : List Nat)
       (nlay nrow ncol : Nat) (items : Option (List (List Nat)))
       (res : List (List Nat × List ((Int × Int) × Arr))),
      fs1 p = some f → f ≠ [] →
      parse_cbb fs1 (some p) nlay nrow ncol items = some res →
      fs2 p = some f.dropLast →
      parse_cbb fs2 (some p) nlay nrow ncol items = none) ∧
    (∀ (fs1 fs2 : String → Option (List Nat)) (p : String) (f : List Nat)
       (res : List ((Int × Int) × Arr)),
      fs1 p = some f → f ≠ [] → parse_hdsu fs1 (some p) = some res →
      fs2 p = some f.dropLast →
      parse_hdsu fs2 (some p) = none) ∧
    (∀ (fs1 fs2 : String → Option (List Nat)) (p : String) (f : List Nat)
       (items : Option (List (List Nat)))
       (res : List ((List Nat × Int × Int × Int) × Arr)),
      fs1 p = some f → f ≠ [] → parse_cbbu fs1 (some p) items = some res →
      fs2 p = some f.dropLast →
      parse_cbbu fs2 (some p) items = none) := by
  refine ⟨?_, ?_, ?_, ?_⟩
  · intro fs1 fs2 p f nlay nrow ncol res hf1 hne h1 h2 h3 hsucc hf2
    have hnz : ¬ (nlay = 0 ∨ nrow = 0 ∨ ncol = 0) := by omega
    simp only [parse_hds, if_neg hnz, hf1] at hsucc
    simp only [parse_hds, if_neg hnz, hf2]
    exact parse_hds_loop_dropLast f nlay nrow ncol h1 (f.length + 1) 0 [] [] res hsucc
      (List.length_pos.mpr hne) (f.dropLast.length + 1)
  · intro fs1 fs2 p f nlay nrow ncol items res hf1 hne hsucc hf2
    simp only [parse_cbb, hf1] at hsucc
    simp only [parse_cbb, hf2]
    exact parse_cbb_loop_dropLast f nlay nrow ncol items (f.length + 1) 0 [] res hsucc
      (List.length_pos.mpr hne) (f.dropLast.length + 1)
  · intro fs1 fs2 p f res hf1 hne hsucc hf2
    simp only [parse_hdsu, hf1] at hsucc
    simp only [parse_hdsu, hf2]
    exact parse_hdsu_loop_dropLast f (f.length + 1) 0 none [] res hsucc
      (List.length_pos.mpr hne) (f.dropLast.length + 1)
  · intro fs1 fs2 p f items res hf1 hne hsucc hf2
    simp only [parse_cbbu, hf1] at hsucc
    simp only [parse_cbbu, hf2]
    exact parse_cbbu_loop_dropLast f items (f.length + 1) 0 [] res hsucc
      (List.length_pos.mpr hne) (f.dropLast.length + 1)

/-- C6 witness: one-byte truncations of concrete valid files make all four
decoders return a failure instead of any partial result. -/
theorem claim_c6_witness :
    parse_hds (fun _ => some (encHFile
      [[⟨1, 1, 0, 99, [32, 32, 32, 32, 32, 32, 32, 32, 32, 32, 32, 32, 32, 32, 32, 32],
          1, 1, 1, [55]⟩,
        ⟨1, 1, 0, 98, [32, 32, 32, 32, 32, 32, 32, 32, 32, 32, 32, 32, 32, 32, 32, 32],
          1, 1, 2, [56]⟩]]).dropLast) (some "abr.hds") 2 1 1 = none ∧
    parse_cbb (fun _ => some (encBFile
      [⟨1, 1, [65, 32, 32, 32, 32, 32, 32, 32, 32, 32, 32, 32, 32, 32, 32, 32],
        1, 1, 1, [100]⟩]).dropLast) (some "abr.cbb") 1 1 1 none = none ∧
    parse_hdsu (fun _ => some (encUFile
      [[⟨1, 2, 0, 0, [32, 32, 32, 32, 32, 32, 32, 32, 32, 32, 32, 32, 32, 32, 32, 32],
          1, 1, 1, [10]⟩]]).dropLast) (some "biscayne.hds") = none ∧
    parse_cbbu (fun _ => some (encUBFile
      [⟨1, 1, [65, 32, 32, 32, 32, 32, 32, 32, 32, 32, 32, 32, 32, 32, 32, 32],
        1, 1, 0, [7]⟩]).dropLast) (some "biscayne.cbc") none = none := by
  refine ⟨?_, ?_, ?_, ?_⟩
  · exact claim_c6.1 (fun _ => some (encHFile
      [[⟨1, 1, 0, 99, [32, 32, 32, 32, 32, 32, 32, 32, 32, 32, 32, 32, 32, 32, 32, 32],
          1, 1, 1, [55]⟩,
        ⟨1, 1, 0, 98, [32, 32, 32, 32, 32, 32, 32, 32, 32, 32, 32, 32, 32, 32, 32, 32],
          1, 1, 2, [56]⟩]]))
      (fun _ => some (encHFile
      [[⟨1, 1, 0, 99, [32, 32, 32, 32, 32, 32, 32, 32, 32, 32, 32, 32, 32, 32, 32, 32],
          1, 1, 1, [55]⟩,
        ⟨1, 1, 0, 98, [32, 32, 32, 32, 32, 32, 32, 32, 32, 32, 32, 32, 32, 32, 32, 32],
          1, 1, 2, [56]⟩]]).dropLast) "abr.hds" _ 2 1 1
      ([((1, 1), Arr.owned [55, 56])], [99]) rfl (by decide) (by decide) (by decide)
      (by decide) (by decide) rfl
  · exact claim_c6.2.1 (fun _ => some (encBFile
      [⟨1, 1, [65, 32, 32, 32, 32, 32, 32, 32, 32, 32, 32, 32, 32, 32, 32, 32],
        1, 1, 1, [100]⟩]))
      (fun _ => some (encBFile
      [⟨1, 1, [65, 32, 32, 32, 32, 32, 32, 32, 32, 32, 32, 32, 32, 32, 32, 32],
        1, 1, 1, [100]⟩]).dropLast) "abr.cbb" _ 1 1 1 none
      [([65], [((1, 1), Arr.owned [100])])] rfl (by decide) (by decide) rfl
  · exact claim_c6.2.2.1 (fun _ => some (encUFile
      [[⟨1, 2, 0, 0, [32, 32, 32, 32, 32, 32, 32, 32, 32, 32, 32, 32, 32, 32, 32, 32],
          1, 1, 1, [10]⟩]]))
      (fun _ => some (encUFile
      [[⟨1, 2, 0, 0, [32, 32, 32, 32, 32, 32, 32, 32, 32, 32, 32, 32, 32, 32, 32, 32],
          1, 1, 1, [10]⟩]]).dropLast) "biscayne.hds" _
      [((2, 1), Arr.owned [10])] rfl (by decide) (by decide) rfl
  · exact claim_c6.2.2.2 (fun _ => some (encUBFile
      [⟨1, 1, [65, 32, 32, 32, 32, 32, 32, 32, 32, 32, 32, 32, 32, 32, 32, 32],
        1, 1, 0, [7]⟩]))
      (fun _ => some (encUBFile
      [⟨1, 1, [65, 32, 32, 32, 32, 32, 32, 32, 32, 32, 32, 32, 32, 32, 32, 32],
        1, 1, 0, [7]⟩]).dropLast) "biscayne.cbc" _ none
      [(([65], 1, 1, 1), Arr.view [7])] rfl (by decide) (by decide) rfl

/-- C8: one unfolding of the `parse_hdsu` scan loop at any reachable state:
when a record's reads succeed, the loop continues with the mapping entry
for that record's `(kper, kstp)` key overwritten by the accumulator's new
contents (the concatenation of everything accumulated since the last
`ilay == 1` record with this record's payload), and looking that key up
in the updated mapping yields exactly the accumulator's current contents.
This holds at every iteration of the scan, not only at end of file, so
the stored value for a key is overwritten on every layer record and only
stabilizes after the group's last layer. -/
theorem claim_c8 (f : List Nat) (fuel off : Nat) (h : Option (List Nat))
    (acc : List ((Int × Int) × Arr)) (hv : List Nat)
    (h1 : off < f.length) (h2 : off + 44 ≤ f.length)
    (h3 : ¬ (getI4 f (off + 36) - getI4 f (off + 32) + 1 < 0))
    (h4 : off + 44 + 4 * (getI4 f (off + 36) - getI4 f (off + 32) + 1).toNat ≤ f.length)
    (hm : (if getI4 f (off + 40) = 1 then some [] else h) = some hv) :
    parse_hdsu_loop f (fuel + 1) off h acc =
      parse_hdsu_loop f fuel
        (off + 44 + 4 * (getI4 f (off + 36) - getI4 f (off + 32) + 1).toNat)
        (some (hv ++ chunkWords (getBytes f (off + 44)
          (4 * (getI4 f (off + 36) - getI4 f (off + 32) + 1).toNat))))
        (updAssoc acc (getI4 f (off + 4), getI4 f off)
          (Arr.owned (hv ++ chunkWords (getBytes f (off + 44)
            (4 * (getI4 f (off + 36) - getI4 f (off + 32) + 1).toNat))))) ∧
    lookupA (updAssoc acc (getI4 f (off + 4), getI4 f off)
        (Arr.owned (hv ++ chunkWords (getBytes f (off + 44)
          (4 * (getI4 f (off + 36) - getI4 f (off + 32) + 1).toNat)))))
      (getI4 f (off + 4), getI4 f off) =
      some (Arr.owned (hv ++ chunkWords (getBytes f (off + 44)
        (4 * (getI4 f (off + 36) - getI4 f (off + 32) + 1).toNat)))) := by
  constructor
  · simp only [parse_hdsu_loop, if_pos h1, if_pos h2, if_neg h3, if_pos h4, hm]
  · exact lookupA_updAssoc_self acc (getI4 f (off + 4), getI4 f off) _

/-- C8 witness: the loop equation instantiated at the first record of a
concrete one-record file (48 bytes, one payload word). -/
theorem claim_c8_witness :
    parse_hdsu_loop (encUFile
      [[⟨1, 2, 0, 0, [32, 32, 32, 32, 32, 32, 32, 32, 32, 32, 32, 32, 32, 32, 32, 32],
          1, 1, 1, [10]⟩]]) 2 0 none [] =
      parse_hdsu_loop (encUFile
      [[⟨1, 2, 0, 0, [32, 32, 32, 32, 32, 32, 32, 32, 32, 32, 32, 32, 32, 32, 32, 32],
          1, 1, 1, [10]⟩]]) 1 48 (some [10]) [((2, 1), Arr.owned [10])] ∧
    lookupA [((2, 1), Arr.owned [10])] (2, 1) = some (Arr.owned [10]) := by
  have h := claim_c8 (encUFile
      [[⟨1, 2, 0, 0, [32, 32, 32, 32, 32, 32, 32, 32, 32, 32, 32, 32, 32, 32, 32, 32],
          1, 1, 1, [10]⟩]]) 1 0 none [] []
      (by decide) (by decide) (by decide) (by decide) (by decide)
  constructor
  · exact h.1.trans (by decide)
  · decide

/-- C9: passing an empty allow-list to the budget decoders behaves exactly
like passing no allow-list at all — Python's `if items` treats `[]` as
falsy, so every label present in the file is retained rather than the
result being empty. -/
theorem claim_c9 :
    (∀ (fs : String → Option (List Nat)) (path : Option String) (nlay nrow ncol : Nat),
      parse_cbb fs path nlay nrow ncol (some []) =
        parse_cbb fs path nlay nrow ncol none) ∧
    (∀ (fs : String → Option (List Nat)) (path : Option String),
      parse_cbbu fs path (some []) = parse_cbbu fs path none) := by
  constructor
  · intro fs path nlay nrow ncol
    cases path with
    | none => rfl
    | some p =>
      simp only [parse_cbb]
      cases fs p with
      | none => rfl
      | some f => exact parse_cbb_loop_items_empty f nlay nrow ncol _ _ _
  · intro fs path
    cases path with
    | none => rfl
    | some p =>
      simp only [parse_cbbu]
      cases fs p with
      | none => rfl
      | some f => exact parse_cbbu_loop_items_empty f _ _ _

/-- C10: `parse_hdsu` succeeds only if the file's first record has
`ilay == 1`: on any non-empty file whose first record header carries
`ilay ≠ 1` the call fails (the accumulator variable is still unbound at
its first use), and conversely once the accumulator is initialized the
unbound branch is unreachable — the loop started with an initialized
accumulator coincides with the branch-free variant `parse_hdsu_loopI`. -/
theorem claim_c10 :
    (∀ (fs : String → Option (List Nat)) (p : String) (f : List Nat),
      fs p = some f → f ≠ [] → getI4 f 40 ≠ 1 →
      parse_hdsu fs (some p) = none) ∧
    (∀ (f : List Nat) (fuel off : Nat) (hv0 : List Nat)
       (acc : List ((Int × Int) × Arr)),
      parse_hdsu_loop f fuel off (some hv0) acc = parse_hdsu_loopI f fuel off hv0 acc) := by
  constructor
  · intro fs p f hf hne hilay
    simp only [parse_hdsu, hf]
    exact parse_hdsu_loop_first_fail f f.length [] hne hilay
  · intro f fuel off hv0 acc
    exact parse_hdsu_loop_init f fuel off hv0 acc

/-- C10 witness: a file whose single record carries `ilay = 2` makes
`parse_hdsu` fail. -/
theorem claim_c10_witness :
    parse_hdsu (fun _ => some (encUFile
      [[⟨1, 2, 0, 0, [32, 32, 32, 32, 32, 32, 32, 32, 32, 32, 32, 32, 32, 32, 32, 32],
          6, 12, 2, [20, 21, 22, 23, 24, 25, 26]⟩]])) (some "biscayne.hds") = none :=
  claim_c10.1 (fun _ => some (encUFile
      [[⟨1, 2, 0, 0, [32, 32, 32, 32, 32, 32, 32, 32, 32, 32, 32, 32, 32, 32, 32, 32],
          6, 12, 2, [20, 21, 22, 23, 24, 25, 26]⟩]])) "biscayne.hds" _
    rfl (by decide) (by decide)
